import Mathlib

/-!
# Interactive-Sudoku-Solver: verification of the solver core

A shallow embedding of the solver core (`SudokuSolver` and `LookupTables`
in the source) and proofs about it.  JS bitwise operators act on 32-bit
integers; every candidate mask handled by the solver fits in 16 bits
(`numValues ≤ 16`), so masks are `Nat` with explicit bounds.  JS doubles
used for the progress accounting and candidate scores are modelled as
exact rationals.
-/

namespace ISS

/-! ## Value encoding (`LookupTables`) -/

/-- Bit length of a value below `2 ^ fuel` (structural so that the kernel
can evaluate it; agrees with `Nat.size` on that range). -/
def bitLenAux : Nat → Nat → Nat
  | 0, _ => 0
  | fuel + 1, v => if v = 0 then 0 else bitLenAux fuel (v / 2) + 1

/-- JS `Math.clz32` for arguments below `2 ^ 32`: count of leading zeros
in the 32-bit representation. -/
def clz32 (v : Nat) : Nat := 32 - bitLenAux 32 v

/-- `LookupTables.fromValue`: `1 << (i - 1)`. -/
def fromValue (i : Nat) : Nat := 1 <<< (i - 1)

/-- `LookupTables.toValue`: `32 - Math.clz32(v)`. -/
def toValue (v : Nat) : Nat := 32 - clz32 v

/-- JS `v & -v` where `-v` is 32-bit two's complement: for `v < 2 ^ 32`
this is `v &&& (2 ^ 32 - v)`, the lowest set bit of `v`. -/
def lowBit (v : Nat) : Nat := v &&& (2 ^ 32 - v)

/-- `LookupTables.minValue`: `32 - Math.clz32(v & -v)`. -/
def minValue (v : Nat) : Nat := toValue (lowBit v)

/-- `LookupTables.toValuesArray`: repeatedly strip the lowest set bit and
record its value.  The source loop runs while `values ≠ 0`; on 32-bit
values it performs at most 32 iterations, which the fuel makes explicit. -/
def toValuesArrayAux : Nat → Nat → List Nat
  | 0, _ => []
  | _ + 1, 0 => []
  | fuel + 1, v => toValue (lowBit v) :: toValuesArrayAux fuel (v ^^^ lowBit v)

/-- `LookupTables.toValuesArray` on a 32-bit value. -/
def toValuesArray (values : Nat) : List Nat := toValuesArrayAux 32 values

/-- Popcount of the low `fuel` bits. -/
def countOnesAux : Nat → Nat → Nat
  | 0, _ => 0
  | fuel + 1, v => v % 2 + countOnesAux fuel (v / 2)

/-- Modelled from the spec: the repo-wide bit-ops helper `countOnes16bit`
(popcount of a 16-bit mask); its defining file is not among the sources
(spec §2: the value encoding provides constant-time popcount). -/
def countOnes16bit (v : Nat) : Nat := countOnesAux 16 v

/-- `SudokuSolver.Util.gridToSolution`: map each cell mask through
`toValue`. -/
def gridToSolution (grid : List Nat) : List Nat := grid.map toValue

example : toValue (fromValue 7) = 7 := by decide
example : minValue 12 = 3 := by decide
example : toValuesArray 11 = [1, 2, 4] := by decide
example : countOnes16bit 11 = 3 := by decide

/-! ## Bit-level facts about the value encoding -/

theorem bitLenAux_zero (fuel : Nat) : bitLenAux fuel 0 = 0 := by
  cases fuel <;> simp [bitLenAux]

theorem bitLenAux_two_pow {fuel k : Nat} (h : k < fuel) :
    bitLenAux fuel (2 ^ k) = k + 1 := by
  induction fuel generalizing k with
  | zero => omega
  | succ fuel ih =>
    cases k with
    | zero => simp [bitLenAux, bitLenAux_zero]
    | succ k =>
      have h2 : (2 : Nat) ^ (k + 1) ≠ 0 := by positivity
      have hdiv : 2 ^ (k + 1) / 2 = 2 ^ k := by
        rw [pow_succ, Nat.mul_div_cancel _ (by norm_num)]
      simp only [bitLenAux, h2, if_false, hdiv]
      rw [ih (by omega)]

theorem toValue_two_pow {k : Nat} (h : k < 32) : toValue (2 ^ k) = k + 1 := by
  have h32 := @bitLenAux_two_pow 32 k h
  simp only [toValue, clz32, h32]
  omega

/-- Index of the lowest set bit (a proof-side notion; the code computes
`2 ^ lowIdx v` as `v & -v`). -/
def lowIdx (v : Nat) : Nat :=
  if h : v = 0 ∨ v % 2 = 1 then 0 else lowIdx (v / 2) + 1
decreasing_by exact Nat.div_lt_self (by omega) (by omega)

theorem lowIdx_odd {v : Nat} (h : v % 2 = 1) : lowIdx v = 0 := by
  rw [lowIdx]
  simp [h]

theorem lowIdx_even {v : Nat} (h0 : v ≠ 0) (h : v % 2 = 0) :
    lowIdx v = lowIdx (v / 2) + 1 := by
  rw [lowIdx]
  simp [h0, h]

theorem testBit_lowIdx {v : Nat} (h0 : v ≠ 0) : Nat.testBit v (lowIdx v) = true := by
  induction v using Nat.strong_induction_on with
  | _ v ih =>
    rcases Nat.mod_two_eq_zero_or_one v with he | ho
    · have hd : v / 2 ≠ 0 := by omega
      rw [lowIdx_even h0 he, Nat.testBit_add_one]
      exact ih (v / 2) (Nat.div_lt_self (by omega) (by omega)) hd
    · rw [lowIdx_odd ho, Nat.testBit_zero]
      simp [ho]

theorem lowIdx_le_of_testBit {v j : Nat} (h : Nat.testBit v j = true) :
    lowIdx v ≤ j := by
  induction v using Nat.strong_induction_on generalizing j with
  | _ v ih =>
    have h0 : v ≠ 0 := by
      intro hv
      rw [hv] at h
      simp at h
    rcases Nat.mod_two_eq_zero_or_one v with he | ho
    · rw [lowIdx_even h0 he]
      cases j with
      | zero =>
        rw [Nat.testBit_zero] at h
        simp [he] at h
      | succ j =>
        rw [Nat.testBit_add_one] at h
        exact Nat.succ_le_succ (ih (v / 2) (Nat.div_lt_self (by omega) (by omega)) h)
    · rw [lowIdx_odd ho]
      omega

theorem land_two_mul (a b : Nat) : (2 * a) &&& (2 * b) = 2 * (a &&& b) := by
  apply Nat.eq_of_testBit_eq
  intro i
  cases i with
  | zero =>
    have h1 : ∀ x : Nat, 2 * x % 2 = 0 := fun x => Nat.mul_mod_right 2 x
    simp [Nat.testBit_and, h1]
  | succ i =>
    have h2 : ∀ x : Nat, 2 * x / 2 = x := fun x => by omega
    simp only [Nat.testBit_and]
    simp only [Nat.testBit_add_one, h2]
    simp only [Nat.testBit_and]

/-- The defining property of JS `v & -v` on `n`-bit values: it extracts the
lowest set bit. -/
theorem land_two_pow_sub {n v : Nat} (h0 : 0 < v) (hv : v < 2 ^ n) :
    v &&& (2 ^ n - v) = 2 ^ lowIdx v := by
  induction n generalizing v with
  | zero => omega
  | succ n ih =>
    rcases Nat.mod_two_eq_zero_or_one v with he | ho
    · -- even case: divide everything by two
      obtain ⟨w, rfl⟩ : ∃ w, v = 2 * w := ⟨v / 2, by omega⟩
      have hw0 : 0 < w := by omega
      have hsub : 2 ^ (n + 1) - 2 * w = 2 * (2 ^ n - w) := by
        rw [pow_succ]
        omega
      rw [hsub, land_two_mul, ih hw0 (by rw [pow_succ] at hv; omega),
        lowIdx_even (by omega) he]
      have : 2 * w / 2 = w := by omega
      rw [this, pow_succ]
      ring
    · -- odd case: the result is bit 0
      rw [lowIdx_odd ho]
      apply Nat.eq_of_testBit_eq
      intro i
      have hsub : 2 ^ (n + 1) - v = 2 ^ (n + 1) - ((v - 1) + 1) := by omega
      have hv1 : v - 1 < 2 ^ (n + 1) := by omega
      have he2 : 2 ^ (n + 1) % 2 = 0 := by
        rw [pow_succ]
        omega
      rw [hsub]
      cases i with
      | zero =>
        have hs : (2 ^ (n + 1) - (v - 1 + 1)) % 2 = 1 := by omega
        simp only [Nat.testBit_and, Nat.testBit_zero, pow_zero]
        simp [ho, hs]
      | succ i =>
        have hiv : (v - 1) / 2 = v / 2 := by omega
        rw [Nat.testBit_and, Nat.testBit_two_pow_sub_succ hv1,
          Nat.testBit_add_one v, Nat.testBit_add_one (v - 1), hiv, pow_zero]
        have h1 : Nat.testBit 1 (i + 1) = false := by
          rw [Nat.testBit_add_one]
          simp
        rw [h1]
        cases hb : Nat.testBit (v / 2) i <;> simp [hb]

theorem lowBit_eq_two_pow {v : Nat} (h0 : 0 < v) (hv : v < 2 ^ 32) :
    lowBit v = 2 ^ lowIdx v :=
  land_two_pow_sub h0 hv

theorem lowIdx_lt_of_lt {v n : Nat} (h0 : 0 < v) (hv : v < 2 ^ n) :
    lowIdx v < n := by
  have h1 : 2 ^ lowIdx v ≤ v := Nat.testBit_implies_ge (testBit_lowIdx (by omega))
  by_contra h
  push_neg at h
  have : 2 ^ n ≤ 2 ^ lowIdx v := Nat.pow_le_pow_right (by omega) h
  omega

theorem minValue_eq {v : Nat} (h0 : 0 < v) (hv : v < 2 ^ 32) :
    minValue v = lowIdx v + 1 := by
  rw [minValue, lowBit_eq_two_pow h0 hv,
    toValue_two_pow (lowIdx_lt_of_lt h0 hv)]

/-! Facts about popcount and stripping the low bit, used to run the
`toValuesArray` loop to completion. -/

theorem countOnesAux_eq_zero {fuel v : Nat} (hv : v < 2 ^ fuel)
    (h : countOnesAux fuel v = 0) : v = 0 := by
  induction fuel generalizing v with
  | zero => omega
  | succ fuel ih =>
    simp only [countOnesAux] at h
    have h1 : v % 2 = 0 := by omega
    have h2 : v / 2 = 0 := by
      refine ih ?_ (by omega)
      rw [pow_succ] at hv
      omega
    omega

theorem xor_div_two (a b : Nat) : (a ^^^ b) / 2 = a / 2 ^^^ b / 2 := by
  apply Nat.eq_of_testBit_eq
  intro i
  rw [Nat.testBit_div_two, Nat.testBit_xor, Nat.testBit_xor,
    ← Nat.testBit_div_two, ← Nat.testBit_div_two]

theorem xor_mod_two (a b : Nat) : (a ^^^ b) % 2 = (a % 2 + b % 2) % 2 := by
  have ha := Nat.testBit_zero a
  have hb := Nat.testBit_zero b
  have hx := Nat.testBit_zero (a ^^^ b)
  rw [Nat.testBit_xor, ha, hb] at hx
  rcases Nat.mod_two_eq_zero_or_one a with h1 | h1 <;>
    rcases Nat.mod_two_eq_zero_or_one b with h2 | h2 <;>
      simp [h1, h2] at hx ⊢ <;> omega

theorem countOnesAux_xor_two_pow {fuel v t : Nat} (ht : t < fuel)
    (hb : Nat.testBit v t = true) :
    countOnesAux fuel (v ^^^ 2 ^ t) + 1 = countOnesAux fuel v := by
  induction fuel generalizing v t with
  | zero => omega
  | succ fuel ih =>
    cases t with
    | zero =>
      rw [Nat.testBit_zero] at hb
      have h1 : v % 2 = 1 := by simpa using hb
      simp only [countOnesAux, pow_zero, xor_mod_two, xor_div_two]
      have h2 : (1 : Nat) / 2 = 0 := rfl
      rw [h2, Nat.xor_zero]
      omega
    | succ t =>
      rw [Nat.testBit_add_one] at hb
      simp only [countOnesAux, xor_mod_two, xor_div_two]
      have h1 : 2 ^ (t + 1) % 2 = 0 := by
        rw [pow_succ]
        omega
      have h2 : 2 ^ (t + 1) / 2 = 2 ^ t := by
        rw [pow_succ]
        omega
      rw [h1, h2]
      have h3 := @ih (v / 2) t (by omega) hb
      omega

theorem xor_two_pow_lt {v t n : Nat} (hv : v < 2 ^ n) (ht : t < n) :
    v ^^^ 2 ^ t < 2 ^ n := by
  apply Nat.lt_pow_two_of_testBit
  intro i hi
  rw [Nat.testBit_xor, Nat.testBit_lt_two_pow (lt_of_lt_of_le hv (Nat.pow_le_pow_right (by omega) hi)),
    Nat.testBit_two_pow_of_ne (by omega)]
  rfl

theorem testBit_xor_two_pow {v t j : Nat} :
    Nat.testBit (v ^^^ 2 ^ t) j = if j = t then !Nat.testBit v t else Nat.testBit v j := by
  rw [Nat.testBit_xor]
  by_cases h : j = t
  · subst h
    simp [Nat.testBit_two_pow_self, Bool.xor_comm]
  · rw [if_neg h, Nat.testBit_two_pow_of_ne (fun hh => h hh.symm)]
    cases hb : Nat.testBit v j <;> simp

theorem countOnesAux_le (fuel v : Nat) : countOnesAux fuel v ≤ fuel := by
  induction fuel generalizing v with
  | zero => simp [countOnesAux]
  | succ fuel ih =>
    simp only [countOnesAux]
    have := ih (v / 2)
    omega

/-- The `toValuesArray` loop on a 16-bit mask returns exactly the set bits,
as values, in increasing order. -/
theorem toValuesArrayAux_spec {fuel v : Nat} (hv : v < 2 ^ 16)
    (hfuel : countOnes16bit v ≤ fuel) :
    (∀ m, m ∈ toValuesArrayAux fuel v ↔ ∃ j, m = j + 1 ∧ Nat.testBit v j = true) ∧
      (toValuesArrayAux fuel v).Sorted (· < ·) := by
  induction fuel generalizing v with
  | zero =>
    have h0 : v = 0 := countOnesAux_eq_zero hv (by
      simp only [countOnes16bit] at hfuel
      omega)
    subst h0
    simp [toValuesArrayAux]
  | succ fuel ih =>
    by_cases hv0 : v = 0
    · subst hv0
      simp [toValuesArrayAux]
    · have h0 : 0 < v := by omega
      have hv32 : v < 2 ^ 32 := lt_of_lt_of_le hv (by norm_num)
      have hlb : lowBit v = 2 ^ lowIdx v := lowBit_eq_two_pow h0 hv32
      have ht16 : lowIdx v < 16 := lowIdx_lt_of_lt h0 hv
      have htb : Nat.testBit v (lowIdx v) = true := testBit_lowIdx (by omega)
      have haux : toValuesArrayAux (fuel + 1) v =
          toValue (lowBit v) :: toValuesArrayAux fuel (v ^^^ lowBit v) := by
        obtain ⟨w, rfl⟩ := Nat.exists_eq_succ_of_ne_zero hv0
        rfl
      have htv : toValue (lowBit v) = lowIdx v + 1 := by
        rw [hlb, toValue_two_pow (by omega)]
      have hv' : v ^^^ lowBit v < 2 ^ 16 := by
        rw [hlb]
        exact xor_two_pow_lt hv ht16
      have hcnt : countOnes16bit (v ^^^ lowBit v) ≤ fuel := by
        have hflip := @countOnesAux_xor_two_pow 16 v (lowIdx v) ht16 htb
        simp only [countOnes16bit] at hfuel ⊢
        rw [hlb]
        omega
      obtain ⟨ihm, ihs⟩ := ih hv' hcnt
      constructor
      · intro m
        rw [haux, List.mem_cons, ihm, htv]
        constructor
        · rintro (rfl | ⟨j, rfl, hj⟩)
          · exact ⟨lowIdx v, rfl, htb⟩
          · rw [hlb, testBit_xor_two_pow] at hj
            by_cases hjt : j = lowIdx v
            · simp [hjt, htb] at hj
            · rw [if_neg hjt] at hj
              exact ⟨j, rfl, hj⟩
        · rintro ⟨j, rfl, hj⟩
          by_cases hjt : j = lowIdx v
          · exact Or.inl (by rw [hjt])
          · refine Or.inr ⟨j, rfl, ?_⟩
            rw [hlb, testBit_xor_two_pow, if_neg hjt]
            exact hj
      · rw [haux, htv, List.sorted_cons]
        refine ⟨?_, ihs⟩
        intro b hb
        obtain ⟨j, rfl, hj⟩ := (ihm b).mp hb
        rw [hlb, testBit_xor_two_pow] at hj
        by_cases hjt : j = lowIdx v
        · simp [hjt, htb] at hj
        · rw [if_neg hjt] at hj
          have := lowIdx_le_of_testBit hj
          omega

/-- C10: the value encoding round-trips.  `toValue ∘ fromValue = id` on
1..16; `minValue` of a nonzero 16-bit mask is its smallest set value;
`gridToSolution` maps a grid of singleton masks back to its value vector;
`toValuesArray` lists exactly the set values in increasing order. -/
theorem claim_C10 :
    (∀ i, 1 ≤ i → i ≤ 16 → toValue (fromValue i) = i) ∧
    (∀ v, 0 < v → v < 2 ^ 16 →
      1 ≤ minValue v ∧ Nat.testBit v (minValue v - 1) = true ∧
        ∀ j, Nat.testBit v j = true → minValue v - 1 ≤ j) ∧
    (∀ k, k < 16 → toValue (2 ^ k) = k + 1) ∧
    (∀ vals : List Nat, (∀ m ∈ vals, 1 ≤ m ∧ m ≤ 16) →
      gridToSolution (vals.map fromValue) = vals) ∧
    (∀ v, v < 2 ^ 16 →
      (∀ m, m ∈ toValuesArray v ↔ ∃ j, m = j + 1 ∧ Nat.testBit v j = true) ∧
        (toValuesArray v).Sorted (· < ·)) := by
  have hfrom : ∀ i, 1 ≤ i → i ≤ 16 → toValue (fromValue i) = i := by
    intro i h1 h16
    have : fromValue i = 2 ^ (i - 1) := by
      rw [fromValue, Nat.shiftLeft_eq, one_mul]
    rw [this, toValue_two_pow (by omega)]
    omega
  refine ⟨hfrom, ?_, ?_, ?_, ?_⟩
  · intro v h0 hv
    have hv32 : v < 2 ^ 32 := lt_of_lt_of_le hv (by norm_num)
    have hm := minValue_eq h0 hv32
    refine ⟨by omega, ?_, ?_⟩
    · rw [hm]
      simpa using testBit_lowIdx (by omega)
    · intro j hj
      rw [hm]
      simpa using lowIdx_le_of_testBit hj
  · intro k hk
    exact toValue_two_pow (by omega)
  · intro vals hvals
    rw [gridToSolution, List.map_map]
    conv_rhs => rw [← List.map_id vals]
    apply List.map_congr_left
    intro m hm
    exact hfrom m (hvals m hm).1 (hvals m hm).2
  · intro v hv
    exact toValuesArrayAux_spec hv (le_trans (countOnesAux_le 16 v) (by norm_num))

/-! ## List access helpers -/

theorem getD_set_self {α : Type} {l : List α} {i : Nat} {a d : α}
    (h : i < l.length) : (l.set i a).getD i d = a := by
  simp [List.getD_eq_getElem?_getD, List.getElem?_set_self h]

theorem getD_set_ne {α : Type} {l : List α} {i j : Nat} {a d : α}
    (h : i ≠ j) : (l.set i a).getD j d = l.getD j d := by
  simp [List.getD_eq_getElem?_getD, List.getElem?_set_ne h]

theorem getD_of_length_le {α : Type} {l : List α} {j : Nat} {d : α}
    (h : l.length ≤ j) : l.getD j d = d := by
  simp [List.getD_eq_getElem?_getD, List.getElem?_eq_none h]

theorem mem_iff_getD {q : List Nat} {i : Nat} :
    i ∈ q ↔ ∃ k, k < q.length ∧ q.getD k 0 = i := by
  rw [List.mem_iff_getElem]
  constructor
  · rintro ⟨k, hk, rfl⟩
    exact ⟨k, hk, by simp [List.getD_eq_getElem?_getD, List.getElem?_eq_getElem hk]⟩
  · rintro ⟨k, hk, hkv⟩
    refine ⟨k, hk, ?_⟩
    rw [← hkv]
    simp [List.getD_eq_getElem?_getD, List.getElem?_eq_getElem hk]

theorem getD_mem_of_lt {α : Type} {l : List α} {k : Nat} {d : α}
    (h : k < l.length) : l.getD k d ∈ l := by
  rw [List.getD_eq_getElem?_getD, List.getElem?_eq_getElem h]
  exact List.getElem_mem h

theorem getD_append_left {α : Type} {l₁ l₂ : List α} {k : Nat}
    (h : k < l₁.length) (d : α) : (l₁ ++ l₂).getD k d = l₁.getD k d := by
  simp [List.getD_eq_getElem?_getD, List.getElem?_append_left h]

theorem getD_append_last {α : Type} {l : List α} {i : Nat} {d a : α}
    (h : i = l.length) : (l ++ [a]).getD i d = a := by
  subst h
  simp [List.getD_eq_getElem?_getD, List.getElem?_append_right (le_refl _)]

/-! ## Handler accumulator (`SudokuSolver.HandlerAccumulator`)

The source keeps a dedup FIFO of handler indices as an intrusive singly
linked list in an `Int16Array`: `next[i] = -2` means "not queued", `-1`
means "tail". -/

structure AccState where
  linkedList : List Int
  head : Int
  tail : Int
deriving DecidableEq

/-- A just-constructed accumulator: nothing queued. -/
def AccState.mk0 (numHandlers : Nat) : AccState :=
  ⟨List.replicate numHandlers (-2), -1, -1⟩

/-- One step of `_enqueueIndexes`: append handler `i` unless present. -/
def AccState.enqueueOne (st : AccState) (i : Nat) : AccState :=
  if st.linkedList.getD i (-2) < -1 then
    if st.head = -1 then
      { linkedList := st.linkedList.set i (-1), head := (i : Int), tail := (i : Int) }
    else
      { linkedList := (st.linkedList.set st.tail.toNat (i : Int)).set i (-1),
        head := st.head, tail := (i : Int) }
  else st

/-- `_enqueueIndexes`. -/
def AccState.enqueueIndexes (st : AccState) (indexes : List Nat) : AccState :=
  indexes.foldl AccState.enqueueOne st

/-- `_pushIndex`: push handler `index` to the front unless present. -/
def AccState.pushIndex (st : AccState) (index : Nat) : AccState :=
  if st.linkedList.getD index (-2) < -1 then
    { linkedList := st.linkedList.set index st.head,
      head := (index : Int),
      tail := if st.head = -1 then (index : Int) else st.tail }
  else st

/-- `isEmpty`. -/
def AccState.isEmpty (st : AccState) : Bool := st.head == -1

/-- `takeNext`: pop the head, restore its slot to `-2`, return its index. -/
def AccState.takeNext (st : AccState) : Nat × AccState :=
  let oldHead := st.head.toNat
  (oldHead,
    { linkedList := st.linkedList.set oldHead (-2),
      head := st.linkedList.getD oldHead (-2),
      tail := st.tail })

/-- The `clear` loop; it follows at most `length` links for a well-formed
list, which the fuel makes explicit. -/
def AccState.clearAux : Nat → List Int → Int → List Int
  | 0, ll, _ => ll
  | fuel + 1, ll, head =>
    if 0 ≤ head then
      AccState.clearAux fuel (ll.set head.toNat (-2)) (ll.getD head.toNat (-2))
    else ll

/-- `clear`. -/
def AccState.clear (st : AccState) : AccState :=
  { linkedList := AccState.clearAux st.linkedList.length st.linkedList st.head,
    head := -1,
    tail := st.tail }

/-- The derived per-cell handler indices (`HandlerSet` maps; the
`HandlerSet` class itself is not among the sources — modelled from the
spec §3: `ordinaryByCell`, `auxByCell`, `exclusionByCell`). -/
structure HandlerMaps where
  ordinaryByCell : List (List Nat)
  auxByCell : List (List Nat)
  exclusionByCell : List Nat
deriving DecidableEq

/-- `addForCell`. -/
def AccState.addForCell (M : HandlerMaps) (st : AccState) (cell : Nat) : AccState :=
  st.enqueueIndexes (M.ordinaryByCell.getD cell [])

/-- `addAuxForCell`. -/
def AccState.addAuxForCell (M : HandlerMaps) (st : AccState) (cell : Nat) : AccState :=
  st.enqueueIndexes (M.auxByCell.getD cell [])

/-- `addForFixedCell`: the cell's exclusion handler goes to the front. -/
def AccState.addForFixedCell (M : HandlerMaps) (st : AccState) (cell : Nat) : AccState :=
  st.pushIndex (M.exclusionByCell.getD cell 0)

/-- The head pointer a queue demands: `-1` when empty, else the first
member. -/
def headInt (q : List Nat) : Int :=
  match q with
  | [] => -1
  | a :: _ => (a : Int)

@[simp] theorem headInt_nil : headInt [] = -1 := rfl

@[simp] theorem headInt_cons (a : Nat) (l : List Nat) :
    headInt (a :: l) = (a : Int) := rfl

/-- `AccRepr st q`: state `st` encodes the queue `q` (front first):
`head` points at the first member, each member's slot holds the next
member, the last member's slot is `-1`, and every other slot is `-2`. -/
def AccRepr (st : AccState) (q : List Nat) : Prop :=
  q.Nodup ∧
  (∀ j ∈ q, j < st.linkedList.length) ∧
  st.head = headInt q ∧
  (q = [] ∨ st.tail = (q.getLastD 0 : Int)) ∧
  (∀ k ∈ List.range q.length,
    st.linkedList.getD (q.getD k 0) (-2) =
      (if k + 1 < q.length then ((q.getD (k + 1) 0 : Nat) : Int) else -1)) ∧
  (∀ j ∈ List.range st.linkedList.length, j ∉ q → st.linkedList.getD j (-2) = -2)

instance (st : AccState) (q : List Nat) : Decidable (AccRepr st q) := by
  unfold AccRepr
  infer_instance

theorem AccRepr.slot_ge {st : AccState} {q : List Nat} (h : AccRepr st q)
    {i : Nat} (hi : i ∈ q) : -1 ≤ st.linkedList.getD i (-2) := by
  obtain ⟨k, hk, rfl⟩ := mem_iff_getD.mp hi
  have hch := h.2.2.2.2.1 k (List.mem_range.mpr hk)
  rw [hch]
  split <;> omega

theorem AccRepr.slot_not_mem {st : AccState} {q : List Nat} (h : AccRepr st q)
    {i : Nat} (hi : i ∉ q) : st.linkedList.getD i (-2) = -2 := by
  by_cases hlen : i < st.linkedList.length
  · exact h.2.2.2.2.2 i (List.mem_range.mpr hlen) hi
  · exact getD_of_length_le (by omega)

theorem enqueueOne_mem {st : AccState} {q : List Nat} (h : AccRepr st q)
    {i : Nat} (hi : i ∈ q) : st.enqueueOne i = st := by
  rw [AccState.enqueueOne, if_neg]
  have := h.slot_ge hi
  omega

theorem pushIndex_mem {st : AccState} {q : List Nat} (h : AccRepr st q)
    {i : Nat} (hi : i ∈ q) : st.pushIndex i = st := by
  rw [AccState.pushIndex, if_neg]
  have := h.slot_ge hi
  omega

theorem getD_eq_getElem {α : Type} {l : List α} {k : Nat} (h : k < l.length)
    (d : α) : l.getD k d = l[k] := by
  simp [List.getD_eq_getElem?_getD, List.getElem?_eq_getElem h]

theorem getD_inj_of_nodup {q : List Nat} (hnd : q.Nodup) {k l : Nat}
    (hk : k < q.length) (hl : l < q.length) (h : q.getD k 0 = q.getD l 0) :
    k = l := by
  rw [getD_eq_getElem hk, getD_eq_getElem hl] at h
  exact (List.Nodup.getElem_inj_iff hnd).mp h

theorem getLastD_eq_getD {l : List Nat} (h : l ≠ []) :
    l.getLastD 0 = l.getD (l.length - 1) 0 := by
  have h1 : l.length - 1 < l.length := by
    cases l with
    | nil => simp at h
    | cons a l => simp
  rw [List.getLastD_eq_getLast?, List.getLast?_eq_getElem?,
    List.getD_eq_getElem?_getD, List.getElem?_eq_getElem h1]

theorem getLastD_mem {l : List Nat} (h : l ≠ []) : l.getLastD 0 ∈ l := by
  rw [getLastD_eq_getD h]
  apply mem_iff_getD.mpr
  refine ⟨l.length - 1, ?_, rfl⟩
  cases l with
  | nil => simp at h
  | cons a l => simp

theorem enqueueOne_not_mem {st : AccState} {q : List Nat} (h : AccRepr st q)
    {i : Nat} (hi : i ∉ q) (hlen : i < st.linkedList.length) :
    AccRepr (st.enqueueOne i) (q ++ [i]) := by
  obtain ⟨hnd, hbd, hhd, htl, hch, hni⟩ := h
  have hslot : st.linkedList.getD i (-2) = -2 :=
    AccRepr.slot_not_mem ⟨hnd, hbd, hhd, htl, hch, hni⟩ hi
  rw [AccState.enqueueOne, if_pos (by omega)]
  cases q with
  | nil =>
    rw [if_pos (by simpa using hhd)]
    refine ⟨by simp, ?_, by simp, ?_, ?_, ?_⟩
    · intro j hj
      simp only [List.nil_append, List.mem_singleton] at hj
      subst hj
      simpa using hlen
    · right
      simp
    · intro k hk
      simp only [List.nil_append, List.length_singleton, List.mem_range] at hk
      interval_cases k
      simp only [List.nil_append, List.length_singleton]
      rw [if_neg (by omega)]
      have h1 : ([i] : List Nat).getD 0 0 = i := by simp
      simp only [h1]
      exact getD_set_self hlen
    · intro j hj hmem
      simp only [List.nil_append, List.mem_singleton] at hmem
      rw [getD_set_ne (fun hh => hmem hh.symm)]
      exact hni j (by simpa using hj) (by simp)
  | cons a q' =>
    have hhd' : st.head = (a : Int) := hhd
    have hne : st.head ≠ -1 := by
      rw [hhd']
      omega
    rw [if_neg hne]
    have hq_ne : (a :: q') ≠ [] := by simp
    have hlast : (a :: q').getLastD 0 ∈ a :: q' := getLastD_mem hq_ne
    have htl' : st.tail = ((a :: q').getLastD 0 : Int) := by
      rcases htl with h1 | h1
      · simp at h1
      · exact h1
    have htoNat : st.tail.toNat = (a :: q').getLastD 0 := by
      rw [htl']
      simp
    have hlast_ne_i : (a :: q').getLastD 0 ≠ i := fun hh => hi (hh ▸ hlast)
    have hlast_lt : (a :: q').getLastD 0 < st.linkedList.length := hbd _ hlast
    refine ⟨?_, ?_, ?_, ?_, ?_, ?_⟩
    · refine List.Nodup.append hnd (by simp) ?_
      intro x hx hxi
      rw [List.mem_singleton] at hxi
      exact hi (hxi ▸ hx)
    · intro j hj
      simp only [List.length_set]
      rcases List.mem_append.mp hj with hj | hj
      · exact hbd j hj
      · simp only [List.mem_singleton] at hj
        subst hj
        exact hlen
    · exact hhd
    · right
      rw [List.getLastD_concat]
    · intro k hk
      rw [List.mem_range, List.length_append, List.length_singleton] at hk
      simp only [List.length_append, List.length_singleton]
      by_cases hk1 : k < (a :: q').length
      · have hkd : ((a :: q') ++ [i]).getD k 0 = (a :: q').getD k 0 :=
          getD_append_left hk1 0
        have hkmem : (a :: q').getD k 0 ∈ a :: q' :=
          mem_iff_getD.mpr ⟨k, hk1, rfl⟩
        have hk_ne_i : (a :: q').getD k 0 ≠ i := fun hh => hi (hh ▸ hkmem)
        rw [hkd, getD_set_ne (fun hh => hk_ne_i hh.symm)]
        have hlen1 : (a :: q').length - 1 < (a :: q').length := by simp
        by_cases hkl : k + 1 < (a :: q').length
        · -- interior link: untouched, still points at the old successor
          have hk_ne_last : (a :: q').getD k 0 ≠ (a :: q').getLastD 0 := by
            rw [getLastD_eq_getD hq_ne]
            intro hh
            have hkk := getD_inj_of_nodup hnd hk1 hlen1 hh
            omega
          have htn : st.tail.toNat ≠ (a :: q').getD k 0 := by
            rw [htoNat]
            exact fun hh => hk_ne_last hh.symm
          rw [getD_set_ne htn]
          have hold := hch k (List.mem_range.mpr hk1)
          rw [hold, if_pos hkl, if_pos (by omega), getD_append_left hkl 0]
        · -- the old last element: its slot now points at `i`
          have hkeq : k = (a :: q').length - 1 := by omega
          have hkd_last : (a :: q').getD k 0 = (a :: q').getLastD 0 := by
            rw [getLastD_eq_getD hq_ne, hkeq]
          have hset : st.tail.toNat < st.linkedList.length := by
            rw [htoNat]
            exact hlast_lt
          rw [hkd_last, ← htoNat, getD_set_self hset,
            if_pos (by omega), getD_append_last (by omega)]
      · -- the new last element `i`: its slot is the tail marker
        have hkeq : k = (a :: q').length := by omega
        rw [getD_append_last hkeq, getD_set_self (by simpa using hlen),
          if_neg (by omega)]
    · intro j hj hmem
      simp only [List.mem_append, List.mem_singleton, not_or] at hmem
      have htj : st.tail.toNat ≠ j := by
        intro hh
        exact hmem.1 (by rw [← hh, htoNat]; exact hlast)
      rw [getD_set_ne (fun hh => hmem.2 hh.symm), getD_set_ne htj]
      exact hni j (by simpa using hj) hmem.1

theorem getLastD_irrel {l : List Nat} (h : l ≠ []) (d₁ d₂ : Nat) :
    l.getLastD d₁ = l.getLastD d₂ := by
  cases l with
  | nil => simp at h
  | cons a l =>
    rw [List.getLastD_cons, List.getLastD_cons]

theorem pushIndex_not_mem {st : AccState} {q : List Nat} (h : AccRepr st q)
    {i : Nat} (hi : i ∉ q) (hlen : i < st.linkedList.length) :
    AccRepr (st.pushIndex i) (i :: q) := by
  obtain ⟨hnd, hbd, hhd, htl, hch, hni⟩ := h
  have hslot : st.linkedList.getD i (-2) = -2 :=
    AccRepr.slot_not_mem ⟨hnd, hbd, hhd, htl, hch, hni⟩ hi
  rw [AccState.pushIndex, if_pos (by omega)]
  cases q with
  | nil =>
    have hhd' : st.head = (-1 : Int) := hhd
    refine ⟨by simp, ?_, rfl, ?_, ?_, ?_⟩
    · intro j hj
      simp only [List.mem_singleton] at hj
      subst hj
      simpa using hlen
    · right
      rw [if_pos hhd']
      simp
    · intro k hk
      simp only [List.length_singleton, List.mem_range] at hk
      interval_cases k
      simp only [List.length_singleton, List.getD_cons_zero]
      rw [if_neg (by omega), getD_set_self hlen, hhd']
    · intro j hj hmem
      simp only [List.mem_singleton] at hmem
      rw [getD_set_ne (fun hh => hmem hh.symm)]
      exact hni j (by simpa using hj) (by simp)
  | cons a q' =>
    have hhd' : st.head = (a : Int) := hhd
    have hq_ne : (a :: q') ≠ [] := by simp
    have hne : ¬st.head = -1 := by
      rw [hhd']
      omega
    refine ⟨?_, ?_, rfl, ?_, ?_, ?_⟩
    · exact List.Nodup.cons hi hnd
    · intro j hj
      simp only [List.length_set]
      rcases List.mem_cons.mp hj with rfl | hj
      · exact hlen
      · exact hbd j hj
    · right
      rw [if_neg hne]
      have htl' : st.tail = ((a :: q').getLastD 0 : Int) := by
        rcases htl with h1 | h1
        · simp at h1
        · exact h1
      have e1 : (i :: a :: q').getLastD 0 = (a :: q').getLastD 0 := by
        rw [List.getLastD_cons]
        exact getLastD_irrel (by simp) i 0
      rw [e1, htl']
    · intro k hk
      simp only [List.length_cons, List.mem_range] at hk ⊢
      cases k with
      | zero =>
        simp only [List.getD_cons_zero]
        rw [getD_set_self hlen, if_pos (by omega), hhd']
        simp
      | succ k =>
        simp only [List.getD_cons_succ]
        have hlc : (a :: q').length = q'.length + 1 := by simp
        have hkmem : (a :: q').getD k 0 ∈ a :: q' :=
          mem_iff_getD.mpr ⟨k, by omega, rfl⟩
        have hk_ne_i : (a :: q').getD k 0 ≠ i := fun hh => hi (hh ▸ hkmem)
        rw [getD_set_ne (fun hh => hk_ne_i hh.symm)]
        have hold := hch k (List.mem_range.mpr (by omega))
        rw [hold, hlc]
        by_cases hkl : k + 1 < q'.length + 1
        · rw [if_pos hkl, if_pos (by omega), List.getD_cons_succ]
        · rw [if_neg hkl, if_neg (by omega)]
    · intro j hj hmem
      simp only [List.mem_cons, not_or] at hmem
      rw [getD_set_ne (fun hh => hmem.1 hh.symm)]
      refine hni j (by simpa using hj) ?_
      simp only [List.mem_cons, not_or]
      exact hmem.2

theorem takeNext_cons {st : AccState} {q : List Nat} (h : AccRepr st q)
    {a : Nat} {q' : List Nat} (hq : q = a :: q') :
    st.takeNext.1 = a ∧ AccRepr st.takeNext.2 q' ∧
      st.takeNext.2.linkedList.getD a (-2) = -2 := by
  subst hq
  obtain ⟨hnd, hbd, hhd, htl, hch, hni⟩ := h
  have hhd' : st.head = (a : Int) := hhd
  have htoNat : st.head.toNat = a := by
    rw [hhd']
    simp
  have ha_lt : a < st.linkedList.length := hbd a (by simp)
  have ha_nmem : a ∉ q' := (List.nodup_cons.mp hnd).1
  have hch0 := hch 0 (List.mem_range.mpr (by simp))
  simp only [List.getD_cons_zero] at hch0
  refine ⟨htoNat, ⟨?_, ?_, ?_, ?_, ?_, ?_⟩, ?_⟩
  · exact (List.nodup_cons.mp hnd).2
  · intro j hj
    simp only [AccState.takeNext, htoNat, List.length_set]
    exact hbd j (by simp [hj])
  · simp only [AccState.takeNext, htoNat]
    rw [hch0]
    cases q' with
    | nil => simp
    | cons b q'' =>
      rw [if_pos (by simp)]
      simp
  · cases hq' : q' with
    | nil => left; rfl
    | cons b q'' =>
      right
      simp only [AccState.takeNext]
      have htl' : st.tail = ((a :: q').getLastD 0 : Int) := by
        rcases htl with h1 | h1
        · simp at h1
        · exact h1
      rw [htl', List.getLastD_cons, hq', getLastD_irrel (by simp) a 0]
  · intro k hk
    simp only [AccState.takeNext, htoNat]
    have hkmem : q'.getD k 0 ∈ q' :=
      mem_iff_getD.mpr ⟨k, List.mem_range.mp hk, rfl⟩
    have hk_ne_a : q'.getD k 0 ≠ a := fun hh => ha_nmem (hh ▸ hkmem)
    rw [getD_set_ne (fun hh => hk_ne_a hh.symm)]
    have hold := hch (k + 1) (List.mem_range.mpr (by
      simp only [List.length_cons]
      exact Nat.succ_lt_succ (List.mem_range.mp hk)))
    simp only [List.getD_cons_succ] at hold
    rw [hold]
    simp only [List.length_cons]
    by_cases hkl : k + 1 < q'.length
    · rw [if_pos (by omega), if_pos hkl]
    · rw [if_neg (by omega), if_neg hkl]
  · intro j hj hmem
    simp only [AccState.takeNext, htoNat] at hj ⊢
    by_cases hja : j = a
    · subst hja
      rw [getD_set_self ha_lt]
    · rw [getD_set_ne (fun hh => hja hh.symm)]
      refine hni j (by simpa using hj) ?_
      simp only [List.mem_cons, not_or]
      exact ⟨hja, hmem⟩
  · simp only [AccState.takeNext, htoNat]
    rw [getD_set_self ha_lt]

theorem nodup_bounded_length {q : List Nat} {n : Nat} (hnd : q.Nodup)
    (hbd : ∀ j ∈ q, j < n) : q.length ≤ n := by
  classical
  have h1 : q.toFinset ⊆ Finset.range n := by
    intro x hx
    rw [List.mem_toFinset] at hx
    exact Finset.mem_range.mpr (hbd x hx)
  have h2 := Finset.card_le_card h1
  rwa [List.toFinset_card_of_nodup hnd, Finset.card_range] at h2

theorem clearAux_length (fuel : Nat) :
    ∀ (ll : List Int) (head : Int),
      (AccState.clearAux fuel ll head).length = ll.length := by
  induction fuel with
  | zero => intro ll head; rfl
  | succ fuel ih =>
    intro ll head
    rw [AccState.clearAux]
    split
    · rw [ih]
      simp
    · rfl

theorem clearAux_spec {q : List Nat} :
    ∀ {ll : List Int} {fuel : Nat},
      q.Nodup → (∀ j ∈ q, j < ll.length) →
      (∀ k ∈ List.range q.length,
        ll.getD (q.getD k 0) (-2) =
          (if k + 1 < q.length then ((q.getD (k + 1) 0 : Nat) : Int) else -1)) →
      (∀ j ∈ List.range ll.length, j ∉ q → ll.getD j (-2) = -2) →
      q.length ≤ fuel →
      ∀ j, (AccState.clearAux fuel ll (headInt q)).getD j (-2) = -2 := by
  induction q with
  | nil =>
    intro ll fuel _ _ _ hni _ j
    rw [show headInt ([] : List Nat) = -1 from rfl]
    have hres : AccState.clearAux fuel ll (-1) = ll := by
      cases fuel with
      | zero => rfl
      | succ fuel =>
        rw [AccState.clearAux, if_neg (by omega)]
    rw [hres]
    by_cases hlen : j < ll.length
    · exact hni j (List.mem_range.mpr hlen) (by simp)
    · exact getD_of_length_le (by omega)
  | cons a q' ih =>
    intro ll fuel hnd hbd hch hni hfuel j
    obtain ⟨fuel, rfl⟩ : ∃ f, fuel = f + 1 := by
      cases fuel with
      | zero => simp at hfuel
      | succ f => exact ⟨f, rfl⟩
    have ha_lt : a < ll.length := hbd a (by simp)
    have ha_nmem : a ∉ q' := (List.nodup_cons.mp hnd).1
    have hch0 := hch 0 (List.mem_range.mpr (by simp))
    simp only [List.getD_cons_zero] at hch0
    have hm : headInt (a :: q') = (a : Int) := rfl
    rw [hm, AccState.clearAux, if_pos (by omega)]
    simp only [Int.toNat_natCast]
    have hnext : ll.getD a (-2) = headInt q' := by
      cases q' with
      | nil =>
        rw [hch0]
        simp [headInt]
      | cons b q'' =>
        rw [hch0, if_pos (by simp only [List.length_cons]; omega)]
        simp [headInt]
    rw [hnext]
    refine ih (List.nodup_cons.mp hnd).2 ?_ ?_ ?_ (by
      simp only [List.length_cons] at hfuel
      omega) j
    · intro x hx
      simp only [List.length_set]
      exact hbd x (by simp [hx])
    · intro k hk
      have hkmem : q'.getD k 0 ∈ q' :=
        mem_iff_getD.mpr ⟨k, List.mem_range.mp hk, rfl⟩
      have hk_ne_a : q'.getD k 0 ≠ a := fun hh => ha_nmem (hh ▸ hkmem)
      rw [getD_set_ne (fun hh => hk_ne_a hh.symm)]
      have hold := hch (k + 1) (List.mem_range.mpr (by
        simp only [List.length_cons]
        exact Nat.succ_lt_succ (List.mem_range.mp hk)))
      simp only [List.getD_cons_succ] at hold
      rw [hold]
      simp only [List.length_cons]
      by_cases hkl : k + 1 < q'.length
      · rw [if_pos (by omega), if_pos hkl]
      · rw [if_neg (by omega), if_neg hkl]
    · intro x hx hxmem
      simp only [List.length_set] at hx
      by_cases hxa : x = a
      · subst hxa
        rw [getD_set_self ha_lt]
      · rw [getD_set_ne (fun hh => hxa hh.symm)]
        refine hni x hx ?_
        simp only [List.mem_cons, not_or]
        exact ⟨hxa, hxmem⟩

theorem clear_spec {st : AccState} {q : List Nat} (h : AccRepr st q) :
    AccRepr st.clear [] ∧ ∀ j, st.clear.linkedList.getD j (-2) = -2 := by
  obtain ⟨hnd, hbd, hhd, htl, hch, hni⟩ := h
  have hfuel : q.length ≤ st.linkedList.length := nodup_bounded_length hnd hbd
  have hall : ∀ j, (AccState.clearAux st.linkedList.length st.linkedList
      (headInt q)).getD j (-2) = -2 :=
    clearAux_spec hnd hbd hch hni hfuel
  rw [← hhd] at hall
  refine ⟨⟨by simp, by simp, rfl, Or.inl rfl, by simp, ?_⟩, ?_⟩
  · intro j hj _
    exact hall j
  · intro j
    exact hall j

/-- C5: the handler accumulator keeps every handler in the queue at most
once (the queue is duplicate-free, and a handler whose linked-list slot is
not `-2` is never enqueued again — both `_pushIndex` and `_enqueueIndexes`
leave the state unchanged); `addForFixedCell` places the cell's exclusion
handler at the head of the queue; ordinary adds append in FIFO order;
`takeNext` pops the head and `clear` empties the queue, both restoring
slots to `-2` so the handler can be re-enqueued later.  Each operation
preserves the representation, so this holds along every operation
sequence. -/
theorem claim_C5 (M : HandlerMaps) (st : AccState) (q : List Nat)
    (h : AccRepr st q) :
    q.Nodup ∧
    (∀ i, st.linkedList.getD i (-2) ≠ -2 →
      st.enqueueOne i = st ∧ st.pushIndex i = st) ∧
    (∀ cell, M.exclusionByCell.getD cell 0 ∉ q →
      M.exclusionByCell.getD cell 0 < st.linkedList.length →
      AccRepr (st.addForFixedCell M cell) (M.exclusionByCell.getD cell 0 :: q)) ∧
    (∀ i, i ∉ q → i < st.linkedList.length →
      AccRepr (st.enqueueOne i) (q ++ [i])) ∧
    (∀ a q', q = a :: q' →
      st.takeNext.1 = a ∧ AccRepr st.takeNext.2 q' ∧
        st.takeNext.2.linkedList.getD a (-2) = -2) ∧
    (AccRepr st.clear [] ∧ ∀ j, st.clear.linkedList.getD j (-2) = -2) := by
  refine ⟨h.1, ?_, ?_, ?_, ?_, clear_spec h⟩
  · intro i hslot
    by_cases hmem : i ∈ q
    · exact ⟨enqueueOne_mem h hmem, pushIndex_mem h hmem⟩
    · exact absurd (AccRepr.slot_not_mem h hmem) hslot
  · intro cell hmem hlen
    exact pushIndex_not_mem h hmem hlen
  · intro i hmem hlen
    exact enqueueOne_not_mem h hmem hlen
  · intro a q' hq
    exact takeNext_cons h hq

theorem claim_C5_witness :
    AccRepr ((⟨[-1, 0, -2], 1, 0⟩ : AccState).enqueueOne 2) [1, 0, 2] :=
  (claim_C5 ⟨[], [], []⟩ ⟨[-1, 0, -2], 1, 0⟩ [1, 0]
    (by decide)).2.2.2.1 2 (by decide) (by decide)

/-! ## Handlers and the propagation drain (`_enforceConstraints`) -/

/-- A constraint handler (spec §4.1).  The individual handler
implementations are out-of-scope external collaborators, so `enforce`
(`enforceConsistency(grid, accumulator)`) and `initFn` (`initialize`,
with the cell-exclusion and shape arguments absorbed into the closure)
are arbitrary functions. -/
structure Handler where
  cells : List Nat
  exclusionCells : List Nat
  essential : Bool
  enforce : List Nat → AccState → Bool × List Nat × AccState
  initFn : List Nat → Bool × List Nat

instance : Inhabited Handler :=
  ⟨⟨[], [], true, fun g a => (true, g, a), fun g => (true, g)⟩⟩

/-- Result of the `_enforceConstraints` drain.  `ok = none` records fuel
exhaustion: the JS `while` loop may iterate unboundedly when handlers keep
re-enqueueing each other, so the model makes the iteration count explicit. -/
structure EnforceResult where
  ok : Option Bool
  grid : List Nat
  acc : AccState
  constraintsProcessed : Nat

/-- `SudokuSolver.InternalSolver._enforceConstraints`: pop handlers until
the accumulator drains; skip non-essential handlers on a complete grid;
abort on the first handler that reports a contradiction. -/
def enforceConstraints (hs : List Handler) :
    Nat → List Nat → Bool → AccState → Nat → EnforceResult
  | 0, grid, _, acc, cp => ⟨none, grid, acc, cp⟩
  | fuel + 1, grid, gridIsComplete, acc, cp =>
    if acc.isEmpty then ⟨some true, grid, acc, cp⟩
    else
      let t := acc.takeNext
      let c := hs.getD t.1 default
      if gridIsComplete && !c.essential then
        enforceConstraints hs fuel grid gridIsComplete t.2 cp
      else
        let r := c.enforce grid t.2
        if r.1 then
          enforceConstraints hs fuel r.2.1 gridIsComplete r.2.2 (cp + 1)
        else
          ⟨some false, r.2.1, r.2.2, cp + 1⟩

theorem isEmpty_iff {st : AccState} {q : List Nat} (h : AccRepr st q) :
    st.isEmpty = true ↔ q = [] := by
  obtain ⟨_, _, hhd, _, _, _⟩ := h
  rw [AccState.isEmpty, beq_iff_eq, hhd]
  cases q with
  | nil => simp
  | cons a q' =>
    simp only [headInt_cons]
    constructor
    · intro hh
      omega
    · intro hh
      simp at hh

theorem enforceConstraints_ok_isEmpty (hs : List Handler) :
    ∀ (fuel : Nat) (grid : List Nat) (gc : Bool) (acc : AccState) (cp : Nat),
      (enforceConstraints hs fuel grid gc acc cp).ok = some true →
      (enforceConstraints hs fuel grid gc acc cp).acc.isEmpty = true := by
  intro fuel
  induction fuel with
  | zero =>
    intro grid gc acc cp h
    simp [enforceConstraints] at h
  | succ fuel ih =>
    intro grid gc acc cp h
    rw [enforceConstraints] at h ⊢
    by_cases he : acc.isEmpty
    · rw [if_pos he] at h ⊢
      exact he
    · rw [if_neg he] at h ⊢
      dsimp only at h ⊢
      split at h
      · rename_i hskip
        rw [if_pos hskip]
        exact ih _ _ _ _ h
      · rename_i hskip
        rw [if_neg hskip]
        split at h
        · rename_i hr
          rw [if_pos hr]
          exact ih _ _ _ _ h
        · rename_i hr
          rw [if_neg hr]
          simp at h

/-- C4: the drain pops handlers while the accumulator is non-empty; a
popped handler is skipped without running (and without incrementing
`constraintsProcessed`) when the grid is complete and it is not essential;
otherwise `constraintsProcessed` is incremented and its
`enforceConsistency` runs; a `false` from a handler aborts immediately
with the rest of the queue unprocessed; and a `some true` result is
produced exactly by the queue draining empty. -/
theorem claim_C4 (hs : List Handler) (fuel : Nat) (grid : List Nat)
    (gc : Bool) (acc : AccState) (cp : Nat) (q : List Nat)
    (h : AccRepr acc q) :
    (q = [] → enforceConstraints hs (fuel + 1) grid gc acc cp =
      ⟨some true, grid, acc, cp⟩) ∧
    (∀ i q', q = i :: q' →
      acc.takeNext.1 = i ∧
      (gc = true → (hs.getD i default).essential = false →
        enforceConstraints hs (fuel + 1) grid gc acc cp =
          enforceConstraints hs fuel grid gc acc.takeNext.2 cp) ∧
      (gc = false ∨ (hs.getD i default).essential = true →
        ((hs.getD i default).enforce grid acc.takeNext.2).1 = false →
        enforceConstraints hs (fuel + 1) grid gc acc cp =
          ⟨some false, ((hs.getD i default).enforce grid acc.takeNext.2).2.1,
            ((hs.getD i default).enforce grid acc.takeNext.2).2.2, cp + 1⟩) ∧
      (gc = false ∨ (hs.getD i default).essential = true →
        ((hs.getD i default).enforce grid acc.takeNext.2).1 = true →
        enforceConstraints hs (fuel + 1) grid gc acc cp =
          enforceConstraints hs fuel
            ((hs.getD i default).enforce grid acc.takeNext.2).2.1 gc
            ((hs.getD i default).enforce grid acc.takeNext.2).2.2 (cp + 1))) ∧
    ((enforceConstraints hs fuel grid gc acc cp).ok = some true →
      (enforceConstraints hs fuel grid gc acc cp).acc.isEmpty = true) := by
  refine ⟨?_, ?_, enforceConstraints_ok_isEmpty hs fuel grid gc acc cp⟩
  · intro hq
    rw [enforceConstraints, if_pos ((isEmpty_iff h).mpr hq)]
  · intro i q' hq
    have htake := takeNext_cons h hq
    have hne : ¬acc.isEmpty = true := by
      rw [isEmpty_iff h, hq]
      simp
    refine ⟨htake.1, ?_, ?_, ?_⟩
    · intro hgc hess
      rw [enforceConstraints, if_neg hne]
      dsimp only
      rw [htake.1, if_pos (by rw [hgc, hess]; rfl)]
    · intro hrun hfalse
      have hcond : ¬(gc && !(hs.getD acc.takeNext.1 default).essential) = true := by
        rw [htake.1]
        rcases hrun with hgc | hess
        · rw [hgc]
          simp
        · rw [hess]
          simp
      rw [enforceConstraints, if_neg hne]
      dsimp only
      rw [if_neg hcond, htake.1, hfalse]
      simp
    · intro hrun htrue
      have hcond : ¬(gc && !(hs.getD acc.takeNext.1 default).essential) = true := by
        rw [htake.1]
        rcases hrun with hgc | hess
        · rw [hgc]
          simp
        · rw [hess]
          simp
      rw [enforceConstraints, if_neg hne]
      dsimp only
      rw [if_neg hcond, htake.1, htrue]
      simp

theorem claim_C4_witness :
    enforceConstraints
        [⟨[0], [], true, fun g a => (false, g, a), fun g => (true, g)⟩]
        1 [3] false ⟨[-1], 0, 0⟩ 0 =
      ⟨some false, [3], ⟨[-2], -1, 0⟩, 1⟩ :=
  ((claim_C4 [⟨[0], [], true, fun g a => (false, g, a), fun g => (true, g)⟩]
      0 [3] false ⟨[-1], 0, 0⟩ 0 [0] (by decide)).2.1 0 [] rfl).2.2.1
    (Or.inl rfl) rfl

/-! ## Grid invalidation at setup (`_invalidateGrid`, `_setUpHandlers`) -/

/-- `SudokuSolver.InternalSolver._invalidateGrid`: zero the handler's
cells; when it has none, zero its exclusion cells; when it has neither,
zero the whole grid. -/
def invalidateGrid (grid : List Nat) (handler : Handler) : List Nat :=
  let cells := if handler.cells.isEmpty then handler.exclusionCells else handler.cells
  let grid' := cells.foldl (fun g c => g.set c 0) grid
  if cells.isEmpty then List.replicate grid'.length 0 else grid'

/-- The initialization pass of `_setUpHandlers`: run every handler's
`initialize` on the initial grid, invalidating the grid whenever one
returns false. -/
def setUpInitialGrid (hs : List Handler) (grid0 : List Nat) : List Nat :=
  hs.foldl (fun g h =>
    if (h.initFn g).1 then (h.initFn g).2 else invalidateGrid (h.initFn g).2 h) grid0

/-- C9 counterexample: a handler with no `cells` but with exclusion cells.
`_invalidateGrid` zeroes the exclusion cells, not the entire grid, so the
claimed "fill the whole grid when the handler has no cells" fails. -/
theorem claim_C9_counterexample :
    (⟨[], [1], true, fun g a => (true, g, a), fun g => (true, g)⟩ : Handler).cells
        = [] ∧
    invalidateGrid [3, 3, 3]
        ⟨[], [1], true, fun g a => (true, g, a), fun g => (true, g)⟩ = [3, 0, 3] ∧
    invalidateGrid [3, 3, 3]
        ⟨[], [1], true, fun g a => (true, g, a), fun g => (true, g)⟩ ≠ [0, 0, 0] := by
  refine ⟨rfl, rfl, ?_⟩
  intro hh
  simp [invalidateGrid] at hh

/-! ## Exact fraction arithmetic

Scores and progress ratios are JS doubles in the source; every such value
is a ratio of integers, modelled exactly as an unreduced
numerator/denominator pair (`ℚ` itself does not evaluate inside the
kernel).  `Q.toRat` interprets a pair in `ℚ`; all operations below are
exact, so the interpretation is a homomorphism as long as denominators
stay nonzero. -/

structure Q where
  num : Int
  den : Nat
deriving DecidableEq

instance : OfNat Q 0 := ⟨⟨0, 1⟩⟩

instance : OfNat Q 1 := ⟨⟨1, 1⟩⟩

instance : LT Q := ⟨fun a b => a.num * (b.den : Int) < b.num * (a.den : Int)⟩

instance : LE Q := ⟨fun a b => a.num * (b.den : Int) ≤ b.num * (a.den : Int)⟩

instance (a b : Q) : Decidable (a < b) :=
  inferInstanceAs (Decidable (a.num * (b.den : Int) < b.num * (a.den : Int)))

instance (a b : Q) : Decidable (a ≤ b) :=
  inferInstanceAs (Decidable (a.num * (b.den : Int) ≤ b.num * (a.den : Int)))

/-- Value equality of fractions (JS `===` on numbers). -/
def Q.eqv (a b : Q) : Prop := a.num * (b.den : Int) = b.num * (a.den : Int)

instance (a b : Q) : Decidable (a.eqv b) :=
  inferInstanceAs (Decidable (a.num * (b.den : Int) = b.num * (a.den : Int)))

def Q.add (a b : Q) : Q :=
  ⟨a.num * (b.den : Int) + b.num * (a.den : Int), a.den * b.den⟩

def Q.sub (a b : Q) : Q :=
  ⟨a.num * (b.den : Int) - b.num * (a.den : Int), a.den * b.den⟩

/-- Division by an integer count. -/
def Q.divNat (a : Q) (n : Nat) : Q := ⟨a.num, a.den * n⟩

/-- An integer divided by a count (`x / count` on two integers). -/
def qdiv (a : Nat) (b : Nat) : Q := ⟨(a : Int), b⟩

/-- `Math.ceil` of a fraction with positive denominator. -/
def Q.ceil (a : Q) : Int := (a.num + (a.den : Int) - 1).fdiv (a.den : Int)

/-- The interpretation of a pair in `ℚ`. -/
def Q.toRat (a : Q) : ℚ := (a.num : ℚ) / (a.den : ℚ)

/-! ## Candidate selector (`SudokuSolver.CandidateSelector`) -/

/-- The result object of `_findCandidatesByHouse` /
`_scoreHouseCandidateValue`, also the cached pending second branch in
`_candidateSelectionState`. -/
structure HouseResult where
  score : Q
  value : Nat
  cell0 : Nat
  cell1 : Nat
deriving DecidableEq

/-- The selector's static data: the grid size and the house handlers'
cells with their per-cell index (`houseHandlerSet` and its accumulator
maps; `HandlerSet` itself is not among the sources — modelled from the
spec §3 derived indices). -/
structure SelConf where
  numCells : Nat
  houses : List (List Nat)
  houseOrdinaryByCell : List (List Nat)
deriving DecidableEq

/-- `_scoreHouseCandidateValue(grid, cells, v)`. -/
def scoreHouseCandidateValue (bt grid cells : List Nat) (v : Nat) : HouseResult :=
  let p := cells.foldl
    (fun (p : Nat × Nat) ci => if grid.getD ci 0 &&& v ≠ 0 then (p.2, ci) else p)
    (0, 0)
  let bt0 := bt.getD p.1 0
  let bt1 := bt.getD p.2 0
  let q := if bt0 < bt1 then (bt1, p.2, p.1) else (bt0, p.1, p.2)
  ⟨qdiv q.1 2, v, q.2.1, q.2.2⟩

/-- One cell of `_findCandidatesByHouse`'s inner scan: update the
`allValues` / `moreThanOne` / `moreThanTwo` saturating counters. -/
def hvcStep (grid : List Nat) (acc : Nat × Nat × Nat) (ci : Nat) :
    Nat × Nat × Nat :=
  let v := grid.getD ci 0
  (acc.1 ||| v, acc.2.1 ||| (acc.1 &&& v), acc.2.2 ||| (acc.2.1 &&& v))

/-- The `allValues` / `moreThanOne` / `moreThanTwo` counters of
`_findCandidatesByHouse`'s inner scan over one house. -/
def houseValueCounts (grid cells : List Nat) : Nat × Nat × Nat :=
  cells.foldl (hvcStep grid) (0, 0, 0)

/-- The `while (exactlyTwo)` loop: score every value left in
`exactlyTwo`, keeping the best.  A 16-bit mask has at most 16 set bits,
which the fuel makes explicit. -/
def bestOverBits (bt grid cells : List Nat) :
    Nat → Nat → HouseResult → HouseResult
  | 0, _, best => best
  | fuel + 1, exactlyTwo, best =>
    if exactlyTwo = 0 then best
    else
      let v := lowBit exactlyTwo
      let result := scoreHouseCandidateValue bt grid cells v
      bestOverBits bt grid cells fuel (exactlyTwo ^^^ v)
        (if best.score < result.score then result else best)

/-- The drain of `_findCandidatesByHouse`'s house accumulator.  No
handler is re-enqueued during this drain, so it pops at most one handler
per house, which the fuel makes explicit. -/
def findCandidatesAux (C : SelConf) (bt grid : List Nat) :
    Nat → AccState → HouseResult → HouseResult
  | 0, _, best => best
  | fuel + 1, acc, best =>
    if acc.isEmpty then best
    else
      let t := acc.takeNext
      let cells := C.houses.getD t.1 []
      let counts := houseValueCounts grid cells
      let exactlyTwo := counts.2.1 &&& (2 ^ 32 - 1 - counts.2.2)
      findCandidatesAux C bt grid fuel t.2
        (bestOverBits bt grid cells 16 exactlyTwo best)

/-- One cell of `_findCandidatesByHouse`'s enqueue scan: enqueue the cell's
ordinary house handlers when its backtrack trigger could beat the score and
the cell is unresolved. -/
def fcbhStep (C : SelConf) (bt grid : List Nat) (minBt : Int)
    (acc : AccState) (i : Nat) : AccState :=
  if minBt ≤ (bt.getD i 0 : Int) ∧ grid.getD i 0 &&& (grid.getD i 0 - 1) ≠ 0
  then acc.enqueueIndexes (C.houseOrdinaryByCell.getD i [])
  else acc

/-- `_findCandidatesByHouse(grid, score)`: enqueue every house touching a
cell that could beat `score` (`Math.ceil(score * 2) | 0`), then scan each
house for values in exactly two cells. -/
def findCandidatesByHouse (C : SelConf) (bt grid : List Nat) (score : Q) :
    HouseResult :=
  let minBt : Int := Q.ceil ⟨score.num * 2, score.den⟩
  let acc := (List.range C.numCells).foldl (fcbhStep C bt grid minBt)
    (AccState.mk0 C.houses.length)
  findCandidatesAux C bt grid (C.houses.length + 1) acc ⟨⟨-1, 1⟩, 0, 0, 0⟩

/-- The scan of `_selectBestCell`, with its break on a `count ≤ 1` cell. -/
def selectBestCellAux (bt grid cellOrder : List Nat) :
    Nat → Nat → Q → Nat → Nat × Q
  | 0, _, maxScore, bestOffset => (bestOffset, maxScore)
  | rem + 1, i, maxScore, bestOffset =>
    let cell := cellOrder.getD i 0
    let count := countOnes16bit (grid.getD cell 0)
    if count ≤ 1 then (i, ⟨-1, 1⟩)
    else
      let score := qdiv (bt.getD cell 0) count
      if maxScore < score then
        selectBestCellAux bt grid cellOrder rem (i + 1) score i
      else
        selectBestCellAux bt grid cellOrder rem (i + 1) maxScore bestOffset

/-- `_minCountCellIndex`. -/
def minCountCellIndexAux (grid cellOrder : List Nat) :
    Nat → Nat → Nat → Nat → Nat
  | 0, _, _, bestOffset => bestOffset
  | rem + 1, i, minCount, bestOffset =>
    let count := countOnes16bit (grid.getD (cellOrder.getD i 0) 0)
    if count < minCount then
      minCountCellIndexAux grid cellOrder rem (i + 1) count i
    else
      minCountCellIndexAux grid cellOrder rem (i + 1) minCount bestOffset

/-- `_minCountCellIndex(grid, cellOrder, cellDepth)`. -/
def minCountCellIndex (grid cellOrder : List Nat) (cellDepth : Nat) : Nat :=
  minCountCellIndexAux grid cellOrder (grid.length - cellDepth) cellDepth (1 <<< 16) 0

/-- `_selectBestCell(grid, cellOrder, cellDepth)`. -/
def selectBestCell (bt grid cellOrder : List Nat) (cellDepth : Nat) : Nat :=
  let r := selectBestCellAux bt grid cellOrder (grid.length - cellDepth) cellDepth ⟨-1, 1⟩ 0
  if r.2.eqv 0 then minCountCellIndex grid cellOrder cellDepth else r.1

/-- `_selectBestCandidate(grid, cellOrder, cellDepth, isNewNode)`.
Returns `(cellOffset, value, count, candidateSelectionState')`. -/
def selectBestCandidate (C : SelConf) (bt : List Nat)
    (selState : List (Option HouseResult)) (cellOrder grid : List Nat)
    (cellDepth : Nat) (isNewNode : Bool) :
    Nat × Nat × Nat × List (Option HouseResult) :=
  match selState.getD cellDepth none with
  | some state =>
    (cellOrder.indexOf state.cell1, state.value, 1, selState.set cellDepth none)
  | none =>
    let firstValue := grid.getD (cellOrder.getD cellDepth 0) 0
    if firstValue &&& (firstValue - 1) = 0 then
      (cellDepth, firstValue, if firstValue ≠ 0 then 1 else 0, selState)
    else
      let cellOffset := selectBestCell bt grid cellOrder cellDepth
      let cell := cellOrder.getD cellOffset 0
      let values := grid.getD cell 0
      let value := lowBit values
      let count := countOnes16bit values
      if isNewNode = true ∧ 2 < count ∧ 0 < bt.getD cell 0 then
        let score := qdiv (bt.getD cell 0) count
        let result := findCandidatesByHouse C bt grid score
        if score ≤ result.score then
          (cellOrder.indexOf result.cell0, result.value, 2,
            selState.set cellDepth (some result))
        else (cellOffset, value, count, selState)
      else (cellOffset, value, count, selState)

/-- Swap two positions of the cell order. -/
def swapL (l : List Nat) (i j : Nat) : List Nat :=
  (l.set i (l.getD j 0)).set j (l.getD i 0)

/-- The first loop of `_updateCellOrder`: skip singletons already at the
front.  Each step advances `cellOffset`, so `grid.length` iterations
suffice, which the fuel makes explicit. -/
def packSkip (grid cellOrder : List Nat) :
    Nat → Nat → Nat → Nat × Nat
  | 0, co, fo => (co, fo)
  | fuel + 1, co, fo =>
    if co = fo ∧ co < grid.length then
      let v := grid.getD (cellOrder.getD co 0) 0
      if v &&& (v - 1) = 0 then packSkip grid cellOrder fuel (co + 1) (fo + 1)
      else packSkip grid cellOrder fuel (co + 1) fo
    else (co, fo)

/-- The second loop of `_updateCellOrder`: swap the remaining singletons
to the front. -/
def packMove (grid : List Nat) :
    Nat → List Nat → Nat → Nat → List Nat × Nat
  | 0, cellOrder, _, fo => (cellOrder, fo)
  | fuel + 1, cellOrder, co, fo =>
    if co < grid.length then
      let v := grid.getD (cellOrder.getD co 0) 0
      if v &&& (v - 1) = 0 then
        packMove grid fuel (swapL cellOrder co fo) (co + 1) (fo + 1)
      else packMove grid fuel cellOrder (co + 1) fo
    else (cellOrder, fo)

/-- `_updateCellOrder(cellDepth, cellOffset, count, grid)`: swap the
chosen cell to the front; when the branch is a singleton, pack all other
current singletons right behind it.  Returns the new order and
`nextCellDepth`. -/
def updateCellOrder (grid cellOrder : List Nat)
    (cellDepth cellOffset count : Nat) : List Nat × Nat :=
  let cellOrder := swapL cellOrder cellOffset cellDepth
  let frontOffset := cellDepth + 1
  let cellOffset := cellOffset + 1
  if 1 < count then (cellOrder, frontOffset)
  else
    let p := packSkip grid cellOrder grid.length cellOffset frontOffset
    packMove grid grid.length cellOrder p.1 p.2

/-- A user step guide; JS tests `guide.cell` / `guide.value` for
truthiness, so `0` stands for an absent field. -/
structure StepGuide where
  cell : Nat
  value : Nat

/-- The mutable step state (`_stepState`): the guides, the step counter
and the `oldGrid` snapshot. -/
structure StepState where
  stepGuides : Nat → Option StepGuide
  step : Nat
  oldGrid : List Nat

/-- JS `arr.indexOf(x, start)`, `none` for a missing element. -/
def indexOfFrom (l : List Nat) (x : Nat) (start : Nat) : Option Nat :=
  match (l.drop start).indexOf? x with
  | none => none
  | some k => some (start + k)

/-- `_adjustForStepState`: override the chosen cell and/or value by the
current step guide.  Returns `(cellOffset, value, adjusted)`. -/
def adjustForStepState (stepState : StepState) (grid cellOrder : List Nat)
    (cellDepth cellOffset value : Nat) : Nat × Nat × Bool :=
  let guide := (stepState.stepGuides stepState.step).getD ⟨0, 0⟩
  let p :=
    if guide.cell ≠ 0 then
      match indexOfFrom cellOrder guide.cell cellDepth with
      | some o => (o, true)
      | none => (cellOffset, false)
    else (cellOffset, false)
  let cellValues := grid.getD (cellOrder.getD p.1 0) 0
  if guide.value ≠ 0 then (p.1, fromValue guide.value, true)
  else if guide.cell ≠ 0 then (p.1, lowBit cellValues, true)
  else (p.1, value, p.2)

/-- `selectNextCandidate(cellDepth, grid, stepState, isNewNode)`.
Returns `(nextCells, value, count, candidateSelectionState', cellOrder')`;
`nextCells` is `cellOrder'[cellDepth..nextCellDepth)`. -/
def selectNextCandidate (C : SelConf) (bt : List Nat)
    (selState : List (Option HouseResult)) (cellOrder grid : List Nat)
    (cellDepth : Nat) (stepState : Option StepState) (isNewNode : Bool) :
    List Nat × Nat × Nat × List (Option HouseResult) × List Nat :=
  let s := selectBestCandidate C bt selState cellOrder grid cellDepth isNewNode
  let a :=
    match stepState with
    | none => s
    | some ss =>
      let a := adjustForStepState ss grid cellOrder cellDepth s.1 s.2.1
      if a.2.2 then
        (a.1, a.2.1, countOnes16bit (grid.getD (cellOrder.getD a.1 0) 0),
          s.2.2.2.set cellDepth none)
      else s
  let u := updateCellOrder grid cellOrder cellDepth a.1 a.2.2.1
  ((u.1.take u.2).drop cellDepth, a.2.1, a.2.2.1, a.2.2.2, u.1)

/-! ## The exactly-two-cells scan -/

/-- How many cells of `cells` still admit value-bit `b`. -/
def bitCount (grid cells : List Nat) (b : Nat) : Nat :=
  cells.countP (fun c => (grid.getD c 0).testBit b)

theorem hvc_foldl_spec (grid : List Nat) (b : Nat) (cells : List Nat) :
    ∀ a0 m1 m2 : Nat,
      (((cells.foldl (hvcStep grid) (a0, m1, m2)).1.testBit b = true) ↔
        (a0.testBit b = true ∨ 1 ≤ bitCount grid cells b)) ∧
      (((cells.foldl (hvcStep grid) (a0, m1, m2)).2.1.testBit b = true) ↔
        (m1.testBit b = true ∨ (a0.testBit b = true ∧ 1 ≤ bitCount grid cells b) ∨
          2 ≤ bitCount grid cells b)) ∧
      (((cells.foldl (hvcStep grid) (a0, m1, m2)).2.2.testBit b = true) ↔
        (m2.testBit b = true ∨ (m1.testBit b = true ∧ 1 ≤ bitCount grid cells b) ∨
          (a0.testBit b = true ∧ 2 ≤ bitCount grid cells b) ∨
          3 ≤ bitCount grid cells b)) := by
  induction cells with
  | nil =>
    intro a0 m1 m2
    simp [bitCount]
  | cons c cs ih =>
    intro a0 m1 m2
    rw [List.foldl_cons]
    have hstep : hvcStep grid (a0, m1, m2) c =
        (a0 ||| grid.getD c 0, m1 ||| (a0 &&& grid.getD c 0),
          m2 ||| (m1 &&& grid.getD c 0)) := rfl
    rw [hstep]
    obtain ⟨ih1, ih2, ih3⟩ := ih (a0 ||| grid.getD c 0)
      (m1 ||| (a0 &&& grid.getD c 0)) (m2 ||| (m1 &&& grid.getD c 0))
    have hk : bitCount grid (c :: cs) b =
        bitCount grid cs b + (if (grid.getD c 0).testBit b = true then 1 else 0) := by
      simp [bitCount, List.countP_cons]
    rw [ih1, ih2, ih3, hk]
    simp only [Nat.testBit_or, Nat.testBit_and, Bool.or_eq_true, Bool.and_eq_true]
    cases ha0 : a0.testBit b <;> cases hm1 : m1.testBit b <;>
      cases hm2 : m2.testBit b <;> cases hv : (grid.getD c 0).testBit b <;>
        simp [ha0, hm1, hm2, hv] <;> omega

theorem getD_lt_of_all {grid : List Nat} {n : Nat}
    (h : ∀ x ∈ grid, x < 2 ^ n) (hn : 0 < n) (c : Nat) :
    grid.getD c 0 < 2 ^ n := by
  by_cases hc : c < grid.length
  · exact h _ (getD_mem_of_lt hc)
  · rw [getD_of_length_le (by omega)]
    positivity

theorem houseValueCounts_lt {grid : List Nat}
    (hgrid : ∀ x ∈ grid, x < 2 ^ 16) (cells : List Nat) :
    (houseValueCounts grid cells).1 < 2 ^ 16 ∧
      (houseValueCounts grid cells).2.1 < 2 ^ 16 ∧
      (houseValueCounts grid cells).2.2 < 2 ^ 16 := by
  rw [houseValueCounts]
  have hgen : ∀ (cs : List Nat) (a0 m1 m2 : Nat), a0 < 2 ^ 16 → m1 < 2 ^ 16 →
      m2 < 2 ^ 16 →
      (cs.foldl (hvcStep grid) (a0, m1, m2)).1 < 2 ^ 16 ∧
        (cs.foldl (hvcStep grid) (a0, m1, m2)).2.1 < 2 ^ 16 ∧
        (cs.foldl (hvcStep grid) (a0, m1, m2)).2.2 < 2 ^ 16 := by
    intro cs
    induction cs with
    | nil =>
      intro a0 m1 m2 h1 h2 h3
      exact ⟨h1, h2, h3⟩
    | cons c cs ih =>
      intro a0 m1 m2 h1 h2 h3
      rw [List.foldl_cons]
      have hv : grid.getD c 0 < 2 ^ 16 := getD_lt_of_all hgrid (by omega) c
      exact ih _ _ _ (Nat.or_lt_two_pow h1 hv)
        (Nat.or_lt_two_pow h2 (Nat.and_lt_two_pow a0 hv))
        (Nat.or_lt_two_pow h3 (Nat.and_lt_two_pow m1 hv))
  exact hgen cells 0 0 0 (by positivity) (by positivity) (by positivity)

theorem bitCount_pos_bit_lt {grid cells : List Nat}
    (hgrid : ∀ x ∈ grid, x < 2 ^ 16) {b : Nat}
    (h : 1 ≤ bitCount grid cells b) : b < 16 := by
  rw [bitCount] at h
  have hpos : 0 < cells.countP (fun c => (grid.getD c 0).testBit b) := by omega
  obtain ⟨c, _, hc⟩ := List.countP_pos_iff.mp hpos
  have h1 : 2 ^ b ≤ grid.getD c 0 := Nat.testBit_implies_ge (by simpa using hc)
  have h2 : grid.getD c 0 < 2 ^ 16 := getD_lt_of_all hgrid (by omega) c
  by_contra hb
  push_neg at hb
  have : (2 : Nat) ^ 16 ≤ 2 ^ b := Nat.pow_le_pow_right (by omega) hb
  omega

/-- The `exactlyTwo` mask of one house: bit `b` set iff exactly two cells
of the house admit value `b+1`. -/
theorem exactlyTwo_testBit {grid : List Nat}
    (hgrid : ∀ x ∈ grid, x < 2 ^ 16) (cells : List Nat) (b : Nat) :
    (((houseValueCounts grid cells).2.1 &&&
        (2 ^ 32 - 1 - (houseValueCounts grid cells).2.2)).testBit b = true) ↔
      bitCount grid cells b = 2 := by
  have hm2 : (houseValueCounts grid cells).2.2 < 2 ^ 32 :=
    lt_of_lt_of_le (houseValueCounts_lt hgrid cells).2.2 (by norm_num)
  have hsub : 2 ^ 32 - 1 - (houseValueCounts grid cells).2.2 =
      2 ^ 32 - ((houseValueCounts grid cells).2.2 + 1) := by omega
  obtain ⟨h1, h2, h3⟩ := hvc_foldl_spec grid b cells 0 0 0
  rw [Nat.testBit_and, hsub, Nat.testBit_two_pow_sub_succ hm2, houseValueCounts]
  simp only [Nat.zero_testBit, Bool.false_eq_true, false_or, false_and, or_false] at h2 h3
  constructor
  · intro hh
    rw [Bool.and_eq_true, Bool.and_eq_true, Bool.not_eq_true'] at hh
    have hk2 : 2 ≤ bitCount grid cells b := h2.mp hh.1
    have hk3 : ¬3 ≤ bitCount grid cells b := by
      intro h3k
      have := h3.mpr h3k
      rw [hh.2.2] at this
      simp at this
    omega
  · intro hk
    have hb16 : b < 16 :=
      bitCount_pos_bit_lt hgrid (show 1 ≤ bitCount grid cells b by omega)
    have hd : decide (b < 32) = true := by
      simp only [decide_eq_true_eq]
      omega
    have hm1b : (cells.foldl (hvcStep grid) (0, 0, 0)).2.1.testBit b = true :=
      h2.mpr (by omega)
    have hm2b : (cells.foldl (hvcStep grid) (0, 0, 0)).2.2.testBit b = false := by
      rw [Bool.eq_false_iff]
      intro hh
      have := h3.mp hh
      omega
    rw [hm1b, hd, hm2b]
    rfl

/-- The shifting-pair fold of `_scoreHouseCandidateValue` only looks at the
cells that pass its test, in order. -/
theorem score_foldl_filter (grid : List Nat) (v : Nat) :
    ∀ (cells : List Nat) (init : Nat × Nat),
      cells.foldl
          (fun (p : Nat × Nat) ci =>
            if grid.getD ci 0 &&& v ≠ 0 then (p.2, ci) else p) init =
        (cells.filter (fun ci => decide (grid.getD ci 0 &&& v ≠ 0))).foldl
          (fun (p : Nat × Nat) ci => (p.2, ci)) init := by
  intro cells
  induction cells with
  | nil => intro init; rfl
  | cons c cs ih =>
    intro init
    rw [List.foldl_cons, List.filter_cons]
    by_cases hc : grid.getD c 0 &&& v ≠ 0
    · rw [if_pos hc, if_pos (by simpa using hc), List.foldl_cons, ih]
    · rw [if_neg hc, if_neg (by simpa using hc), ih]

/-- The test of the shifting-pair fold is exactly "value `b+1` is still a
candidate of the cell". -/
theorem score_test_eq_testBit (grid : List Nat) (b ci : Nat) :
    decide (grid.getD ci 0 &&& 2 ^ b ≠ 0) = (grid.getD ci 0).testBit b := by
  rcases h : (grid.getD ci 0).testBit b with _ | _
  · simp only [decide_eq_false_iff_not, not_not]
    rw [Nat.and_two_pow, h]
    simp
  · simp only [decide_eq_true_eq]
    rw [Nat.and_two_pow, h]
    simp only [Bool.toNat_true, one_mul]
    positivity

/-- `_scoreHouseCandidateValue` on a value held by exactly two cells of the
house: the returned cells are the two holders (higher backtrack trigger
first) and the score is half the larger trigger. -/
theorem scoreHouseCandidateValue_spec (bt : List Nat) {grid cells : List Nat}
    {b : Nat} (hk : bitCount grid cells b = 2) :
    (scoreHouseCandidateValue bt grid cells (2 ^ b)).value = 2 ^ b ∧
    (scoreHouseCandidateValue bt grid cells (2 ^ b)).cell0 ∈ cells ∧
    (scoreHouseCandidateValue bt grid cells (2 ^ b)).cell1 ∈ cells ∧
    (grid.getD (scoreHouseCandidateValue bt grid cells (2 ^ b)).cell0 0).testBit b
      = true ∧
    (grid.getD (scoreHouseCandidateValue bt grid cells (2 ^ b)).cell1 0).testBit b
      = true ∧
    bt.getD (scoreHouseCandidateValue bt grid cells (2 ^ b)).cell1 0 ≤
      bt.getD (scoreHouseCandidateValue bt grid cells (2 ^ b)).cell0 0 ∧
    (scoreHouseCandidateValue bt grid cells (2 ^ b)).score =
      qdiv (max (bt.getD (scoreHouseCandidateValue bt grid cells (2 ^ b)).cell0 0)
        (bt.getD (scoreHouseCandidateValue bt grid cells (2 ^ b)).cell1 0)) 2 := by
  have hfilter : cells.filter (fun ci => decide (grid.getD ci 0 &&& 2 ^ b ≠ 0)) =
      cells.filter (fun ci => (grid.getD ci 0).testBit b) :=
    List.filter_congr (fun ci _ => score_test_eq_testBit grid b ci)
  have hlen : (cells.filter (fun ci => (grid.getD ci 0).testBit b)).length = 2 := by
    rw [← List.countP_eq_length_filter]
    exact hk
  obtain ⟨x, y, hxy⟩ := List.length_eq_two.mp hlen
  have hxf : x ∈ cells.filter (fun ci => (grid.getD ci 0).testBit b) := by
    rw [hxy]; simp
  have hyf : y ∈ cells.filter (fun ci => (grid.getD ci 0).testBit b) := by
    rw [hxy]; simp
  have hxmem : x ∈ cells := List.mem_of_mem_filter hxf
  have hymem : y ∈ cells := List.mem_of_mem_filter hyf
  have hxbit : (grid.getD x 0).testBit b = true := by
    have := (List.mem_filter.mp hxf).2
    simpa using this
  have hybit : (grid.getD y 0).testBit b = true := by
    have := (List.mem_filter.mp hyf).2
    simpa using this
  have hfold : cells.foldl
      (fun (p : Nat × Nat) ci =>
        if grid.getD ci 0 &&& 2 ^ b ≠ 0 then (p.2, ci) else p) (0, 0) = (x, y) := by
    rw [score_foldl_filter, hfilter, hxy]
    rfl
  have hval : scoreHouseCandidateValue bt grid cells (2 ^ b) =
      if bt.getD x 0 < bt.getD y 0 then
        (⟨qdiv (bt.getD y 0) 2, 2 ^ b, y, x⟩ : HouseResult)
      else ⟨qdiv (bt.getD x 0) 2, 2 ^ b, x, y⟩ := by
    rw [scoreHouseCandidateValue]
    rw [hfold]
    by_cases hlt : bt.getD x 0 < bt.getD y 0
    · rw [if_pos hlt, if_pos hlt]
    · rw [if_neg hlt, if_neg hlt]
  by_cases hlt : bt.getD x 0 < bt.getD y 0
  · rw [hval, if_pos hlt]
    dsimp only
    have hmax : max (bt.getD y 0) (bt.getD x 0) = bt.getD y 0 :=
      Nat.max_eq_left (by omega)
    exact ⟨rfl, hymem, hxmem, hybit, hxbit, by omega, by rw [hmax]⟩
  · rw [hval, if_neg hlt]
    dsimp only
    have hmax : max (bt.getD x 0) (bt.getD y 0) = bt.getD x 0 :=
      Nat.max_eq_left (by omega)
    exact ⟨rfl, hxmem, hymem, hxbit, hybit, by omega, by rw [hmax]⟩

/-- The `while (exactlyTwo)` loop returns either its initial best or the
score of some bit still set in the mask. -/
theorem bestOverBits_spec (bt grid cells : List Nat) :
    ∀ (fuel e : Nat) (best : HouseResult), e < 2 ^ 32 →
      bestOverBits bt grid cells fuel e best = best ∨
        ∃ b, e.testBit b = true ∧
          bestOverBits bt grid cells fuel e best =
            scoreHouseCandidateValue bt grid cells (2 ^ b) := by
  intro fuel
  induction fuel with
  | zero => intro e best he; left; rfl
  | succ fuel ih =>
    intro e best he
    rw [bestOverBits]
    by_cases he0 : e = 0
    · rw [if_pos he0]
      left
      rfl
    · rw [if_neg he0]
      dsimp only
      have htb : e.testBit (lowIdx e) = true := testBit_lowIdx he0
      have hlow : lowBit e = 2 ^ lowIdx e := by
        rw [lowBit]
        exact land_two_pow_sub (Nat.pos_of_ne_zero he0) he
      have hple : 2 ^ lowIdx e ≤ e := Nat.testBit_implies_ge htb
      have he' : e ^^^ lowBit e < 2 ^ 32 := by
        rw [hlow]
        exact Nat.xor_lt_two_pow he (by omega)
      rcases ih (e ^^^ lowBit e)
          (if best.score < (scoreHouseCandidateValue bt grid cells (lowBit e)).score
            then scoreHouseCandidateValue bt grid cells (lowBit e) else best)
          he' with h1 | ⟨b, hb, h2⟩
      · rw [h1]
        by_cases hbs : best.score <
            (scoreHouseCandidateValue bt grid cells (lowBit e)).score
        · right
          refine ⟨lowIdx e, htb, ?_⟩
          rw [if_pos hbs, hlow]
        · left
          rw [if_neg hbs]
      · right
        refine ⟨b, ?_, h2⟩
        rw [hlow, Nat.testBit_xor, Nat.testBit_two_pow] at hb
        by_cases hteq : lowIdx e = b
        · subst hteq
          rw [htb] at hb
          simp at hb
        · simpa [hteq] using hb

theorem enqueueOne_length (st : AccState) (i : Nat) :
    (st.enqueueOne i).linkedList.length = st.linkedList.length := by
  rw [AccState.enqueueOne]
  split
  · split <;> simp
  · rfl

theorem enqueueIndexes_length (indexes : List Nat) :
    ∀ st : AccState,
      (st.enqueueIndexes indexes).linkedList.length = st.linkedList.length := by
  induction indexes with
  | nil => intro st; rfl
  | cons i is ih =>
    intro st
    have h1 : st.enqueueIndexes (i :: is) = (st.enqueueOne i).enqueueIndexes is := rfl
    rw [h1]
    exact (ih _).trans (enqueueOne_length st i)

/-- `_enqueueIndexes` keeps the accumulator well-formed: some queue (the old
one extended with the new members) represents the result. -/
theorem enqueueIndexes_repr (indexes : List Nat) :
    ∀ (st : AccState) (q : List Nat), AccRepr st q →
      (∀ j ∈ indexes, j < st.linkedList.length) →
      ∃ q', AccRepr (st.enqueueIndexes indexes) q' := by
  induction indexes with
  | nil => intro st q h _; exact ⟨q, h⟩
  | cons i is ih =>
    intro st q h hb
    have h1 : st.enqueueIndexes (i :: is) = (st.enqueueOne i).enqueueIndexes is := rfl
    rw [h1]
    by_cases hmem : i ∈ q
    · rw [enqueueOne_mem h hmem]
      exact ih st q h (fun j hj => hb j (List.mem_cons_of_mem i hj))
    · have h2 := enqueueOne_not_mem h hmem (hb i (List.mem_cons_self i is))
      exact ih (st.enqueueOne i) (q ++ [i]) h2
        (fun j hj => by
          rw [enqueueOne_length]
          exact hb j (List.mem_cons_of_mem i hj))

theorem getD_replicate_int (n j : Nat) :
    (List.replicate n (-2 : Int)).getD j (-2) = -2 := by
  rw [List.getD_eq_getElem?_getD, List.getElem?_replicate]
  split <;> rfl

/-- A just-built accumulator represents the empty queue. -/
theorem mk0_repr (n : Nat) : AccRepr (AccState.mk0 n) [] := by
  refine ⟨List.nodup_nil, by simp, rfl, Or.inl rfl, by simp, ?_⟩
  intro j hj hmem
  exact getD_replicate_int n j

theorem mk0_length (n : Nat) : (AccState.mk0 n).linkedList.length = n := by
  simp [AccState.mk0]

theorem takeNext_length (st : AccState) :
    st.takeNext.2.linkedList.length = st.linkedList.length := by
  simp [AccState.takeNext]

theorem fcbhStep_length (C : SelConf) (bt grid : List Nat) (minBt : Int)
    (acc : AccState) (i : Nat) :
    (fcbhStep C bt grid minBt acc i).linkedList.length =
      acc.linkedList.length := by
  rw [fcbhStep]
  split
  · exact enqueueIndexes_length _ _
  · rfl

/-- The enqueue scan of `_findCandidatesByHouse` keeps the accumulator
well-formed and its backing array's size fixed. -/
theorem fcbh_build_repr (C : SelConf) (bt grid : List Nat) (minBt : Int)
    (hmap : ∀ i, ∀ j ∈ C.houseOrdinaryByCell.getD i [], j < C.houses.length) :
    ∀ (l : List Nat) (st : AccState) (q : List Nat), AccRepr st q →
      st.linkedList.length = C.houses.length →
      ∃ q', AccRepr (l.foldl (fcbhStep C bt grid minBt) st) q' ∧
        (l.foldl (fcbhStep C bt grid minBt) st).linkedList.length =
          C.houses.length := by
  intro l
  induction l with
  | nil => intro st q h hlen; exact ⟨q, h, hlen⟩
  | cons i is ih =>
    intro st q h hlen
    rw [List.foldl_cons]
    have hstep : ∃ q1, AccRepr (fcbhStep C bt grid minBt st i) q1 := by
      rw [fcbhStep]
      split
      · exact enqueueIndexes_repr _ st q h
          (fun j hj => by rw [hlen]; exact hmap i j hj)
      · exact ⟨q, h⟩
    obtain ⟨q1, hq1⟩ := hstep
    exact ih _ q1 hq1 ((fcbhStep_length C bt grid minBt st i).trans hlen)

/-- The drain of `_findCandidatesByHouse` returns either its initial best
or the score of a value held by exactly two cells of one of the queued
houses. -/
theorem findCandidatesAux_spec (C : SelConf) (bt grid : List Nat)
    (hgrid : ∀ x ∈ grid, x < 2 ^ 16) :
    ∀ (q : List Nat) (fuel : Nat) (st : AccState) (best : HouseResult),
      AccRepr st q → q.length < fuel →
      st.linkedList.length = C.houses.length →
      (findCandidatesAux C bt grid fuel st best = best ∨
        ∃ cells ∈ C.houses, ∃ b, bitCount grid cells b = 2 ∧
          findCandidatesAux C bt grid fuel st best =
            scoreHouseCandidateValue bt grid cells (2 ^ b)) := by
  intro q
  induction q with
  | nil =>
    intro fuel st best h hf hlen
    obtain ⟨f, rfl⟩ : ∃ f, fuel = f + 1 := ⟨fuel - 1, by omega⟩
    rw [findCandidatesAux, if_pos ((isEmpty_iff h).mpr rfl)]
    left
    rfl
  | cons a q' ih =>
    intro fuel st best h hf hlen
    obtain ⟨f, rfl⟩ : ∃ f, fuel = f + 1 := ⟨fuel - 1, by omega⟩
    rw [findCandidatesAux]
    have hne : ¬ st.isEmpty = true := by
      rw [isEmpty_iff h]
      simp
    rw [if_neg hne]
    dsimp only
    obtain ⟨ht1, ht2, _⟩ := takeNext_cons h rfl
    rw [ht1]
    have ha_lt : a < C.houses.length := by
      have := h.2.1 a (by simp)
      omega
    have hmem_cells : C.houses.getD a [] ∈ C.houses := getD_mem_of_lt ha_lt
    have he2 : (houseValueCounts grid (C.houses.getD a [])).2.1 &&&
        (2 ^ 32 - 1 - (houseValueCounts grid (C.houses.getD a [])).2.2) <
        2 ^ 32 := by
      have h1 := (houseValueCounts_lt hgrid (C.houses.getD a [])).2.1
      have h2 : (houseValueCounts grid (C.houses.getD a [])).2.1 &&&
          (2 ^ 32 - 1 - (houseValueCounts grid (C.houses.getD a [])).2.2) ≤
          (houseValueCounts grid (C.houses.getD a [])).2.1 := Nat.and_le_left
      omega
    rcases ih f st.takeNext.2 _ ht2 (by
        simp only [List.length_cons] at hf
        omega)
      ((takeNext_length st).trans hlen) with hrec | ⟨cells', hc', b', hk', heq'⟩
    · rw [hrec]
      rcases bestOverBits_spec bt grid (C.houses.getD a []) 16 _ best he2
        with hbb | ⟨b, hb, hbb⟩
      · rw [hbb]
        left
        rfl
      · right
        refine ⟨C.houses.getD a [], hmem_cells, b, ?_, hbb⟩
        exact (exactlyTwo_testBit hgrid (C.houses.getD a []) b).mp hb
    · right
      exact ⟨cells', hc', b', hk', heq'⟩

/-- `_findCandidatesByHouse` returns either the untouched initial result
(score `-1`) or the score of a value held by exactly two cells of one of
the solver's houses. -/
theorem findCandidatesByHouse_spec (C : SelConf) (bt grid : List Nat)
    (score : Q) (hgrid : ∀ x ∈ grid, x < 2 ^ 16)
    (hmap : ∀ i, ∀ j ∈ C.houseOrdinaryByCell.getD i [], j < C.houses.length) :
    findCandidatesByHouse C bt grid score = ⟨⟨-1, 1⟩, 0, 0, 0⟩ ∨
      ∃ cells ∈ C.houses, ∃ b, bitCount grid cells b = 2 ∧
        findCandidatesByHouse C bt grid score =
          scoreHouseCandidateValue bt grid cells (2 ^ b) := by
  rw [findCandidatesByHouse]
  obtain ⟨q, hq, hlen⟩ := fcbh_build_repr C bt grid
    (Q.ceil ⟨score.num * 2, score.den⟩) hmap (List.range C.numCells)
    (AccState.mk0 C.houses.length) [] (mk0_repr _) (mk0_length _)
  have hqlen : q.length < C.houses.length + 1 := by
    have hbd : ∀ j ∈ q, j < C.houses.length := fun j hj => by
      have := hq.2.1 j hj
      omega
    have := nodup_bounded_length hq.1 hbd
    omega
  exact findCandidatesAux_spec C bt grid hgrid q _ _ _ hq hqlen hlen

theorem Q.not_le {a b : Q} : ¬ a ≤ b ↔ b < a := by
  show ¬ (a.num * (b.den : Int) ≤ b.num * (a.den : Int)) ↔
    b.num * (a.den : Int) < a.num * (b.den : Int)
  exact Int.not_le

theorem Q.le_trans_mid {a b c : Q} (hb : 0 < b.den) (h1 : a ≤ b) (h2 : b ≤ c) :
    a ≤ c := by
  show a.num * (c.den : Int) ≤ c.num * (a.den : Int)
  have h1' : a.num * (b.den : Int) ≤ b.num * (a.den : Int) := h1
  have h2' : b.num * (c.den : Int) ≤ c.num * (b.den : Int) := h2
  have hc : (0 : Int) ≤ (c.den : Int) := Int.natCast_nonneg _
  have ha : (0 : Int) ≤ (a.den : Int) := Int.natCast_nonneg _
  have hbpos : (0 : Int) < (b.den : Int) := by exact_mod_cast hb
  have k3 : a.num * (c.den : Int) * (b.den : Int) ≤
      c.num * (a.den : Int) * (b.den : Int) := by
    calc a.num * (c.den : Int) * (b.den : Int)
        = a.num * (b.den : Int) * (c.den : Int) := by ring
      _ ≤ b.num * (a.den : Int) * (c.den : Int) :=
          mul_le_mul_of_nonneg_right h1' hc
      _ = b.num * (c.den : Int) * (a.den : Int) := by ring
      _ ≤ c.num * (b.den : Int) * (a.den : Int) :=
          mul_le_mul_of_nonneg_right h2' ha
      _ = c.num * (a.den : Int) * (b.den : Int) := by ring
  exact le_of_mul_le_mul_right k3 hbpos

theorem qdiv_nonneg (a b : Nat) : (0 : Q) ≤ qdiv a b := by
  show (0 : Int) * ((qdiv a b).den : Int) ≤ (qdiv a b).num * (1 : Int)
  rw [qdiv]
  simp

/-- C7 (amended: the house candidate is branched on when its score beats
**or ties** the cell-branch score — the source tests `result.score >=
score`, so an exact tie also takes the house branch).  In the cached-state
branch `_selectBestCandidate` returns the recorded second cell with its
value and `count = 1`; otherwise, for a non-singleton chosen cell, the
house branching is attempted only when the node is new, the chosen cell's
popcount exceeds 2 and its backtrack trigger is positive; a winning house
candidate is a value held by exactly two cells of some house, scored as
`max(bt[cell_a], bt[cell_b]) / 2`, and on a win `count = 2` and the result
is cached in `candidateSelectionState[cellDepth]`. -/
theorem claim_C7 (C : SelConf) (bt : List Nat)
    (selState : List (Option HouseResult)) (cellOrder grid : List Nat)
    (cellDepth : Nat) (isNewNode : Bool)
    (hgrid : ∀ x ∈ grid, x < 2 ^ 16)
    (hmap : ∀ i, ∀ j ∈ C.houseOrdinaryByCell.getD i [], j < C.houses.length) :
    (∀ st : HouseResult, selState.getD cellDepth none = some st →
      selectBestCandidate C bt selState cellOrder grid cellDepth isNewNode =
        (cellOrder.indexOf st.cell1, st.value, 1, selState.set cellDepth none)) ∧
    (selState.getD cellDepth none = none →
      grid.getD (cellOrder.getD cellDepth 0) 0 &&&
          (grid.getD (cellOrder.getD cellDepth 0) 0 - 1) ≠ 0 →
      ∀ cell count result,
        cell = cellOrder.getD (selectBestCell bt grid cellOrder cellDepth) 0 →
        count = countOnes16bit (grid.getD cell 0) →
        result = findCandidatesByHouse C bt grid (qdiv (bt.getD cell 0) count) →
        ((¬ (isNewNode = true ∧ 2 < count ∧ 0 < bt.getD cell 0) →
          selectBestCandidate C bt selState cellOrder grid cellDepth isNewNode =
            (selectBestCell bt grid cellOrder cellDepth,
              lowBit (grid.getD cell 0), count, selState)) ∧
        ((isNewNode = true ∧ 2 < count ∧ 0 < bt.getD cell 0) →
          result.score < qdiv (bt.getD cell 0) count →
          selectBestCandidate C bt selState cellOrder grid cellDepth isNewNode =
            (selectBestCell bt grid cellOrder cellDepth,
              lowBit (grid.getD cell 0), count, selState)) ∧
        ((isNewNode = true ∧ 2 < count ∧ 0 < bt.getD cell 0) →
          qdiv (bt.getD cell 0) count ≤ result.score →
          selectBestCandidate C bt selState cellOrder grid cellDepth isNewNode =
            (cellOrder.indexOf result.cell0, result.value, 2,
              selState.set cellDepth (some result)) ∧
          ∃ cells ∈ C.houses, ∃ b,
            bitCount grid cells b = 2 ∧
            result.value = 2 ^ b ∧ result.cell0 ∈ cells ∧ result.cell1 ∈ cells ∧
            (grid.getD result.cell0 0).testBit b = true ∧
            (grid.getD result.cell1 0).testBit b = true ∧
            result.score =
              qdiv (max (bt.getD result.cell0 0) (bt.getD result.cell1 0)) 2))) := by
  constructor
  · intro st hst
    rw [selectBestCandidate, hst]
  · intro hnc hfv cell count result hcell hcount hres
    rw [selectBestCandidate, hnc]
    dsimp only
    rw [if_neg hfv]
    rw [← hcell, ← hcount]
    refine ⟨?_, ?_, ?_⟩
    · intro hgate
      rw [if_neg hgate]
    · intro hgate hlt
      rw [if_pos hgate, ← hres, if_neg (Q.not_le.mpr hlt)]
    · intro hgate hle
      obtain ⟨hg1, hg2, hg3⟩ := hgate
      rw [if_pos ⟨hg1, hg2, hg3⟩, ← hres, if_pos hle]
      refine ⟨rfl, ?_⟩
      have hpos : (0 : Q) ≤ result.score := by
        refine Q.le_trans_mid ?_ (qdiv_nonneg (bt.getD cell 0) count) hle
        show 0 < count
        omega
      rcases findCandidatesByHouse_spec C bt grid
          (qdiv (bt.getD cell 0) count) hgrid hmap with hdef | ⟨cs, hcs, b, hk, heq⟩
      · rw [← hres] at hdef
        rw [hdef] at hpos
        exact absurd hpos (by decide)
      · rw [← hres] at heq
        obtain ⟨h1, h2, h3, h4, h5, _, h7⟩ := scoreHouseCandidateValue_spec bt hk
        rw [← heq] at h1 h2 h3 h4 h5 h7
        exact ⟨cs, hcs, b, hk, h1, h2, h3, h4, h5, h7⟩

/-- C7 counterexample to "branched on only when this score beats the
cell-branch score": on a 4-cell instance with one house `[1, 2, 3]`, the
chosen cell is 0 with popcount 4, `bt` 2 and cell-branch score `2/4`; the
best house candidate (value 1 in cells 1 and 2) scores `1/2`, an exact tie
that does **not** beat the cell score — yet the selector takes the house
branch (`count = 2`, second branch cached), because the source tests
`result.score >= score`. -/
theorem claim_C7_counterexample :
    selectBestCell [2, 1, 1, 0] [15, 3, 3, 6] [0, 1, 2, 3] 0 = 0 ∧
    countOnes16bit 15 = 4 ∧
    ¬ (qdiv 2 4 < (findCandidatesByHouse ⟨4, [[1, 2, 3]], [[], [0], [0], [0]]⟩
        [2, 1, 1, 0] [15, 3, 3, 6] (qdiv 2 4)).score) ∧
    selectBestCandidate ⟨4, [[1, 2, 3]], [[], [0], [0], [0]]⟩ [2, 1, 1, 0]
        [none, none, none, none] [0, 1, 2, 3] [15, 3, 3, 6] 0 true =
      (1, 1, 2, [some ⟨qdiv 1 2, 1, 1, 2⟩, none, none, none]) := by
  refine ⟨by decide, by decide, by decide, by decide⟩

theorem claim_C7_witness :
    selectBestCandidate ⟨4, [[1, 2, 3]], [[], [0], [0], [0]]⟩ [2, 1, 1, 0]
        [none, none, none, none] [0, 1, 2, 3] [15, 3, 3, 6] 0 true =
      ([0, 1, 2, 3].indexOf
          (findCandidatesByHouse ⟨4, [[1, 2, 3]], [[], [0], [0], [0]]⟩
            [2, 1, 1, 0] [15, 3, 3, 6] (qdiv 2 4)).cell0,
        (findCandidatesByHouse ⟨4, [[1, 2, 3]], [[], [0], [0], [0]]⟩
            [2, 1, 1, 0] [15, 3, 3, 6] (qdiv 2 4)).value, 2,
        ([none, none, none, none] : List (Option HouseResult)).set 0
          (some (findCandidatesByHouse ⟨4, [[1, 2, 3]], [[], [0], [0], [0]]⟩
            [2, 1, 1, 0] [15, 3, 3, 6] (qdiv 2 4)))) :=
  (((claim_C7 ⟨4, [[1, 2, 3]], [[], [0], [0], [0]]⟩ [2, 1, 1, 0]
      [none, none, none, none] [0, 1, 2, 3] [15, 3, 3, 6] 0 true
      (by decide)
      (fun i j hj => by
        match i with
        | 0 => simp at hj
        | 1 =>
          simp only [List.getD_cons_succ, List.getD_cons_zero] at hj
          simp at hj
          subst hj
          decide
        | 2 =>
          simp only [List.getD_cons_succ, List.getD_cons_zero] at hj
          simp at hj
          subst hj
          decide
        | 3 =>
          simp only [List.getD_cons_succ, List.getD_cons_zero] at hj
          simp at hj
          subst hj
          decide
        | n + 4 =>
          rw [getD_of_length_le (by simp)] at hj
          simp at hj)).2
    (by decide) (by decide) 0 4
    (findCandidatesByHouse ⟨4, [[1, 2, 3]], [[], [0], [0], [0]]⟩ [2, 1, 1, 0]
      [15, 3, 3, 6] (qdiv 2 4))
    (by decide) (by decide) (by decide)).2.2 (by decide) (by decide)).1

/-! ## The search driver (`SudokuSolver.InternalSolver`)

The generator `run(yieldWhen)` is modelled as a state machine: `loopStep`
performs one iteration of its `while (recDepth)` loop, `drive` iterates it
until a yield, and `advance` resumes a paused iterator at one of its yield
points (`GenPos`).  JS doubles for the progress counters become exact
rationals (`Q`). -/

/-- `this.counters`. -/
structure Counters where
  valuesTried : Nat
  nodesSearched : Nat
  backtracks : Nat
  guesses : Nat
  solutions : Nat
  constraintsProcessed : Nat
  progressRatio : Q
  progressRatioPrev : Q
  branchesIgnored : Q
deriving DecidableEq

/-- `reset()`'s counters object. -/
def zeroCounters : Counters := ⟨0, 0, 0, 0, 0, 0, ⟨0, 1⟩, ⟨0, 1⟩, ⟨0, 1⟩⟩

/-- The solver's mutable state shared between runs: the per-depth grids,
the recursion stack, the per-depth remaining-progress entries, the
backtrack triggers, the counters, the run counter / `_atStart` / `done`
flags, the `_uninterestingValues` pruning mask, the candidate selector's
`_cellOrder` and `_candidateSelectionState`, the step state and the
persistent handler accumulator. -/
structure SolverState where
  grids : List (List Nat)
  recStack : List Nat
  progressRemainingStack : List Q
  backtrackTriggers : List Nat
  counters : Counters
  runCounter : Nat
  atStart : Bool
  done : Bool
  uninterestingValues : Option (List Nat)
  cellOrder : List Nat
  selState : List (Option HouseResult)
  stepState : Option StepState
  handlerAcc : AccState

/-- The solver's static configuration: grid size, handler list (indexed by
the accumulator), per-cell handler maps, selector configuration, the
initial grid (after handler setup), the cell priorities and the model fuel
for one `_enforceConstraints` drain. -/
structure Solver where
  numCells : Nat
  handlers : List Handler
  M : HandlerMaps
  C : SelConf
  initialGrid : List Nat
  cellPriorities : List Nat
  enforceFuel : Nat

/-- `_hasInterestingSolutions(grid, uninterestingValues)`. -/
def hasInterestingSolutions (numCells : Nat) (grid u : List Nat) : Bool :=
  (List.range numCells).any
    (fun c => grid.getD c 0 &&& (2 ^ 32 - 1 - u.getD c 0) ≠ 0)

/-- The initial enqueue of `run`: `addForCell(i)` for every cell. -/
def accAllCells (M : HandlerMaps) (numCells : Nat) (acc : AccState) : AccState :=
  (List.range numCells).foldl (fun a i => a.addForCell M i) acc

/-- The per-branch enqueue of `run`: for every enforced cell, its exclusion
handler to the front, then (unless the grid is complete) its aux handlers,
then its ordinary handlers. -/
def accForNextCells (M : HandlerMaps) (nextCells : List Nat)
    (gridIsComplete : Bool) (acc : AccState) : AccState :=
  nextCells.foldl
    (fun a c =>
      let a := a.addForFixedCell M c
      let a := if gridIsComplete then a else a.addAuxForCell M c
      a.addForCell M c) acc

/-- The events `run` yields: the pre-search step-mode snapshot, a solution,
an every-Kth-contradiction report, or a step report. -/
inductive Event where
  | initStep (grid : List Nat)
  | solution (grid : List Nat) (cellOrder : List Nat)
  | contradiction (grid : List Nat)
  | step (grid : List Nat) (oldValues : Nat) (hasContradiction : Bool)
deriving DecidableEq

/-- The yield points of `run`, i.e. where a paused iterator resumes:
after the pre-search step yield, after a solution yield, after a
contradiction yield, or after a step yield (which still has the
prune-and-push tail of the loop body to execute). -/
inductive GenPos where
  | afterInitStep
  | afterSolution
  | afterContradiction
  | afterStep (hasContradiction : Bool) (nextDepth : Nat)
deriving DecidableEq

/-- An iterator's state: the shared solver state plus the generator's
locals (`recDepth`, `isNewNode`, `progressDelta`,
`lastContradictionCell`, `iterationCounterForUpdates`), the run counter
captured at creation and the `yieldWhen` mode (0 = on solution, 1 = every
step, `n > 1` = every `n` contradictions). -/
structure IterState where
  s : SolverState
  recDepth : Nat
  isNewNode : Bool
  progressDelta : Q
  lastContradictionCell : List Int
  iterCounter : Nat
  savedRunCounter : Nat
  yieldWhen : Nat

/-- The outcome of one `while (recDepth)` iteration. -/
inductive StepOut where
  | finished (t : IterState)
  | next (t : IterState)
  | yielded (e : Event) (pos : GenPos) (t : IterState)
  | stuck (t : IterState)

/-- The outcome of advancing an iterator: a yield, generator completion,
a raised exception, or model fuel exhaustion. -/
inductive AdvOut where
  | yielded (e : Event) (pos : GenPos) (t : IterState)
  | finished (t : IterState)
  | raised (msg : String)
  | stuck

/-- The tail of the loop body shared by the normal path and the
step-yield resume: on a contradiction just continue; otherwise prune the
branch when every cell's candidates lie inside `_uninterestingValues`
(charging `branchesIgnored`), else push the new frame.  `t.recDepth` is
the depth the body finished at; `t.progressDelta` the branch's share. -/
def afterPropagation (cfg : Solver) (t : IterState) (nextDepth : Nat)
    (hasContradiction : Bool) : IterState :=
  if hasContradiction then t
  else
    let interesting :=
      match t.s.uninterestingValues with
      | none => true
      | some u =>
        hasInterestingSolutions cfg.numCells (t.s.grids.getD t.recDepth []) u
    if interesting then
      { t with
        s := { t.s with recStack := t.s.recStack.set t.recDepth nextDepth },
        recDepth := t.recDepth + 1,
        isNewNode := true }
    else
      { t with
        s := { t.s with counters := { t.s.counters with
          branchesIgnored := t.s.counters.branchesIgnored.add t.progressDelta } } }

/-- The loop body after candidate selection (`run`, lines 676–800), taking
the selection result as an argument: progress accounting and backtrack
decay, the guess bookkeeping (`count !== 1`), the per-branch enqueue
including `lastContradictionCell`, constraint propagation, contradiction
bookkeeping with its every-Kth yield, the step yield, and the shared
prune-or-push tail. -/
def applySelection (cfg : Solver) (t : IterState) (d cellDepth : Nat)
    (sel : List Nat × Nat × Nat × List (Option HouseResult) × List Nat) :
    StepOut :=
  let s0 := { t.s with selState := sel.2.2.2.1, cellOrder := sel.2.2.2.2 }
  let nextCells := sel.1
  let value := sel.2.1
  let count := sel.2.2.1
  if count = 0 then .next { t with s := s0, recDepth := d }
  else
    let nextDepth := cellDepth + nextCells.length
    let cell := nextCells.getD 0 0
    let grid := s0.grids.getD d []
    let s1 :=
      if t.yieldWhen = 1 then
        match s0.stepState with
        | none => s0
        | some ss => { s0 with stepState := some { ss with oldGrid := grid } }
      else s0
    let rem := s1.progressRemainingStack.getD d ⟨0, 1⟩
    let progressDelta := rem.divNat count
    let s2 :=
      { s1 with
        progressRemainingStack :=
          s1.progressRemainingStack.set d (rem.sub progressDelta),
        counters := { s1.counters with
          valuesTried := s1.counters.valuesTried + nextCells.length } }
    let ic0 := t.iterCounter + 1
    let s3 :=
      { s2 with
        backtrackTriggers :=
          if ic0 &&& (2 ^ 14 - 1) = 0 then s2.backtrackTriggers.map (· / 2)
          else s2.backtrackTriggers }
    let ic := if ic0 &&& (2 ^ 14 - 1) = 0 then ic0 &&& (2 ^ 30 - 1) else ic0
    let d2 := if count ≠ 1 then d + 1 else d
    let parentGrid := grid.set cell (grid.getD cell 0 ^^^ value)
    let s4 :=
      { s3 with
        grids :=
          if count ≠ 1 then
            (s3.grids.set d parentGrid).set (d + 1) (parentGrid.set cell value)
          else s3.grids.set d (grid.set cell value),
        counters := { s3.counters with
          guesses :=
            if count ≠ 1 then s3.counters.guesses + 1 else s3.counters.guesses } }
    let gridIsComplete := decide (nextDepth = cfg.numCells)
    let acc0 := accForNextCells cfg.M nextCells gridIsComplete s4.handlerAcc.clear
    let lc := t.lastContradictionCell.getD cellDepth (-1)
    let acc := if 0 ≤ lc then acc0.addForCell cfg.M lc.toNat else acc0
    let lcc :=
      if 0 ≤ lc ∧ count = 1 then t.lastContradictionCell.set cellDepth (-1)
      else t.lastContradictionCell
    let er := enforceConstraints cfg.handlers cfg.enforceFuel
      (s4.grids.getD d2 []) gridIsComplete acc s4.counters.constraintsProcessed
    match er.ok with
    | none =>
      .stuck
        { t with
          s := s4, recDepth := d2, isNewNode := false,
          progressDelta := progressDelta, lastContradictionCell := lcc,
          iterCounter := ic }
    | some ok =>
      let hasContradiction := !ok
      let s5 :=
        { s4 with
          grids := s4.grids.set d2 er.grid,
          handlerAcc := er.acc,
          counters := { s4.counters with
            constraintsProcessed := er.constraintsProcessed } }
      let lcc2 :=
        if hasContradiction ∧ 0 < cellDepth then
          lcc.set (cellDepth - 1) (cell : Int)
        else lcc
      let s6 :=
        if hasContradiction then
          { s5 with
            counters := { s5.counters with
              progressRatio := s5.counters.progressRatio.add progressDelta,
              backtracks := s5.counters.backtracks + 1 },
            backtrackTriggers := s5.backtrackTriggers.set cell
              (s5.backtrackTriggers.getD cell 0 + 1) }
        else s5
      let t2 : IterState :=
        { t with
          s := s6, recDepth := d2,
          isNewNode := false, progressDelta := progressDelta,
          lastContradictionCell := lcc2, iterCounter := ic }
      let yoc := if 1 < t.yieldWhen then t.yieldWhen else 0
      if hasContradiction ∧ yoc ≠ 0 ∧ s6.counters.backtracks % yoc = 0 then
        .yielded (.contradiction er.grid) .afterContradiction t2
      else if t.yieldWhen = 1 then
        let outGrid := er.grid.set cell value
        let s7 := { s6 with grids := s6.grids.set d2 outGrid }
        let oldValues :=
          match s7.stepState with
          | none => 0
          | some ss => ss.oldGrid.getD cell 0
        .yielded (.step outGrid oldValues hasContradiction)
          (.afterStep hasContradiction nextDepth) { t2 with s := s7 }
      else
        .next (afterPropagation cfg t2 nextDepth hasContradiction)

/-- One iteration of `run`'s `while (recDepth)` loop: exit when the stack
is empty (setting `done`); pop a frame; on a first visit either yield a
solution (when every cell is assigned) or record the frame's remaining
progress and count the node; then select a candidate and run the body. -/
def loopStep (cfg : Solver) (t : IterState) : StepOut :=
  if t.recDepth = 0 then
    .finished { t with s := { t.s with done := true } }
  else
    let d := t.recDepth - 1
    let cellDepth := t.s.recStack.getD d 0
    let grid := t.s.grids.getD d []
    let wasNewNode := t.isNewNode
    if t.isNewNode = true ∧ cellDepth = cfg.numCells then
      let s :=
        { t.s with
          counters := { t.s.counters with
            progressRatio := t.s.counters.progressRatio.add t.progressDelta,
            solutions := t.s.counters.solutions + 1 } }
      .yielded (.solution grid s.cellOrder) .afterSolution
        { t with s := s, recDepth := d, isNewNode := false }
    else
      let t1 :=
        if t.isNewNode then
          { t with
            isNewNode := false,
            s := { t.s with
              progressRemainingStack :=
                t.s.progressRemainingStack.set d t.progressDelta,
              counters := { t.s.counters with
                nodesSearched := t.s.counters.nodesSearched + 1 } } }
        else t
      applySelection cfg t1 d cellDepth
        (selectNextCandidate cfg.C t1.s.backtrackTriggers t1.s.selState
          t1.s.cellOrder grid cellDepth t1.s.stepState wasNewNode)

/-- Iterate `loopStep` until a yield, completion, or fuel exhaustion. -/
def drive (cfg : Solver) : Nat → IterState → AdvOut
  | 0, _ => .stuck
  | fuel + 1, t =>
    match loopStep cfg t with
    | .finished t => .finished t
    | .next t => drive cfg fuel t
    | .yielded e pos t => .yielded e pos t
    | .stuck _ => .stuck

/-- Resume a paused iterator.  The solution, step and pre-search yields
re-validate the iterator (`checkRunCounter`) as their first action; the
contradiction yield has no check after it (`run`, lines 758–766), so its
resume continues the loop directly. -/
def advance (cfg : Solver) (pos : GenPos) (t : IterState) (fuel : Nat) :
    AdvOut :=
  match pos with
  | .afterSolution =>
    if t.savedRunCounter ≠ t.s.runCounter then .raised "Iterator no longer valid"
    else drive cfg fuel t
  | .afterContradiction => drive cfg fuel t
  | .afterInitStep =>
    if t.savedRunCounter ≠ t.s.runCounter then .raised "Iterator no longer valid"
    else
      let s :=
        match t.s.stepState with
        | none => t.s
        | some ss => { t.s with stepState := some { ss with step := 1 } }
      drive cfg fuel
        { t with
          s := { s with recStack := s.recStack.set 0 0 },
          recDepth := 1,
          isNewNode := true,
          progressDelta := ⟨1, 1⟩,
          lastContradictionCell := List.replicate cfg.numCells (-1) }
  | .afterStep hasContradiction nextDepth =>
    if t.savedRunCounter ≠ t.s.runCounter then .raised "Iterator no longer valid"
    else
      let s :=
        match t.s.stepState with
        | none => t.s
        | some ss => { t.s with stepState := some { ss with step := ss.step + 1 } }
      drive cfg fuel (afterPropagation cfg { t with s := s } nextDepth
        hasContradiction)

/-- Create and first advance an iterator (`run(yieldWhen)` up to its first
suspension): validate `_atStart`, bump the run counter, roll the progress
counters over, run the initial whole-grid constraint propagation — whose
result is discarded (`run`, line 614) — then either emit the step-mode
snapshot yield or enter the search loop. -/
def startRun (cfg : Solver) (s : SolverState) (yieldWhen fuel : Nat) : AdvOut :=
  if s.atStart = false then .raised "State is not in initial state."
  else
    let s :=
      { s with
        atStart := false,
        runCounter := s.runCounter + 1,
        counters := { s.counters with
          progressRatioPrev :=
            s.counters.progressRatioPrev.add s.counters.progressRatio,
          progressRatio := ⟨0, 1⟩ } }
    let acc := accAllCells cfg.M cfg.numCells s.handlerAcc.clear
    let er := enforceConstraints cfg.handlers cfg.enforceFuel
      (s.grids.getD 0 []) false acc s.counters.constraintsProcessed
    match er.ok with
    | none => .stuck
    | some _ =>
      let s :=
        { s with
          grids := s.grids.set 0 er.grid,
          handlerAcc := er.acc,
          counters := { s.counters with
            constraintsProcessed := er.constraintsProcessed } }
      let t0 : IterState := ⟨s, 0, false, ⟨1, 1⟩, [], 0, s.runCounter, yieldWhen⟩
      if yieldWhen = 1 then
        let ss :=
          match s.stepState with
          | none => (⟨fun _ => none, 0, List.replicate cfg.numCells 0⟩ : StepState)
          | some ss => ss
        .yielded (.initStep (s.grids.getD 0 [])) .afterInitStep
          { t0 with s := { s with stepState := some ss } }
      else
        drive cfg fuel
          { t0 with
            s := { s with recStack := s.recStack.set 0 0 },
            recDepth := 1,
            isNewNode := true,
            lastContradictionCell := List.replicate cfg.numCells (-1) }

/-- `_resetStack()`: reset the candidate selector; when not already at the
start, invalidate outstanding iterators (`_runCounter++`), clear `done`,
restore the initial grid and the root's remaining progress. -/
def resetStack (cfg : Solver) (s : SolverState) : SolverState :=
  let s :=
    { s with
      cellOrder := List.range cfg.numCells,
      selState := List.replicate cfg.numCells none }
  if s.atStart then s
  else
    { s with
      runCounter := s.runCounter + 1,
      done := false,
      atStart := true,
      grids := s.grids.set 0 cfg.initialGrid,
      progressRemainingStack := s.progressRemainingStack.set 0 ⟨1, 1⟩ }

/-- `reset()`: clear the step state, zero the counters, restore the
backtrack triggers from the cell priorities, forget the pruning mask, and
reset the stack. -/
def resetSolver (cfg : Solver) (s : SolverState) : SolverState :=
  resetStack cfg
    { s with
      stepState := none,
      counters := zeroCounters,
      backtrackTriggers := cfg.cellPriorities,
      uninterestingValues := none }

/-- The solver state right after construction: zeroed grids and stacks,
run counter 0, then `reset()` (the constructor's last step; `_atStart` is
still unset, so the stack reset runs in full). -/
def initialSolverState (cfg : Solver) : SolverState :=
  resetSolver cfg
    { grids := List.replicate (cfg.numCells + 1) (List.replicate cfg.numCells 0),
      recStack := List.replicate (cfg.numCells + 1) 0,
      progressRemainingStack := List.replicate (cfg.numCells + 1) ⟨0, 1⟩,
      backtrackTriggers := cfg.cellPriorities,
      counters := zeroCounters,
      runCounter := 0,
      atStart := false,
      done := false,
      uninterestingValues := none,
      cellOrder := List.range cfg.numCells,
      selState := List.replicate cfg.numCells none,
      stepState := none,
      handlerAcc := AccState.mk0 cfg.handlers.length }

def AdvOut.isRaised : AdvOut → Bool
  | .raised _ => true
  | _ => false

def AdvOut.isFinished : AdvOut → Bool
  | .finished _ => true
  | _ => false

/-! ## C8: stale-iterator validation -/

/-- C8 (amended: the every-Kth-contradiction yield has **no** validity
check after it — `run` lines 758–766 yield without a following
`checkRunCounter()` — so a stale iterator paused there resumes without
raising): a stale iterator (one whose recorded run counter no longer
matches the solver's, as after `_resetStack` on a started solver, which
increments `_runCounter`) raises "Iterator no longer valid" when advanced
at a solution, pre-search step, or step yield point. -/
theorem claim_C8 (cfg : Solver) (t : IterState) (fuel : Nat)
    (hstale : t.savedRunCounter ≠ t.s.runCounter) :
    advance cfg .afterSolution t fuel = .raised "Iterator no longer valid" ∧
    advance cfg .afterInitStep t fuel = .raised "Iterator no longer valid" ∧
    (∀ hc nd, advance cfg (.afterStep hc nd) t fuel =
      .raised "Iterator no longer valid") ∧
    (t.s.atStart = false → (resetStack cfg t.s).runCounter = t.s.runCounter + 1) := by
  refine ⟨?_, ?_, fun hc nd => ?_, fun hns => ?_⟩
  · show (if t.savedRunCounter ≠ t.s.runCounter then
        AdvOut.raised "Iterator no longer valid" else drive cfg fuel t) = _
    rw [if_pos hstale]
  · show (if t.savedRunCounter ≠ t.s.runCounter then
        AdvOut.raised "Iterator no longer valid" else _) = _
    rw [if_pos hstale]
  · show (if t.savedRunCounter ≠ t.s.runCounter then
        AdvOut.raised "Iterator no longer valid" else _) = _
    rw [if_pos hstale]
  · rw [resetStack]
    dsimp only
    rw [if_neg (by rw [hns]; simp)]

/-- A one-cell solver whose single handler always reports a
contradiction: running it with `yieldWhen = 2` pauses at the
second-backtrack contradiction yield. -/
def c8cfg : Solver :=
  ⟨1, [⟨[0], [], true, fun g a => (false, g, a), fun g => (true, g)⟩],
    ⟨[[0]], [[]], [0]⟩, ⟨1, [], [[]]⟩, [3], [0], 10⟩

def c8start : AdvOut := startRun c8cfg (initialSolverState c8cfg) 2 50

/-- The iterator paused at the contradiction yield. -/
def c8iter : IterState :=
  match c8start with
  | .yielded _ _ t => t
  | _ => ⟨initialSolverState c8cfg, 0, false, ⟨1, 1⟩, [], 0, 0, 0⟩

def c8pos : GenPos :=
  match c8start with
  | .yielded _ p _ => p
  | _ => .afterSolution

/-- The same iterator after `_resetStack` bumped the solver's run
counter: it is stale. -/
def c8stale : IterState := { c8iter with s := resetStack c8cfg c8iter.s }

/-- C8 counterexample to "for every yield mode": a concrete stale iterator
paused at an every-Kth-contradiction yield advances to completion without
raising. -/
theorem claim_C8_counterexample :
    c8pos = GenPos.afterContradiction ∧
    c8stale.savedRunCounter ≠ c8stale.s.runCounter ∧
    (advance c8cfg .afterContradiction c8stale 50).isRaised = false ∧
    (advance c8cfg .afterContradiction c8stale 50).isFinished = true := by
  refine ⟨by decide, by decide, by decide, by decide⟩

theorem claim_C8_witness :
    advance c8cfg .afterSolution c8stale 50 =
      .raised "Iterator no longer valid" ∧
    advance c8cfg .afterInitStep c8stale 50 =
      .raised "Iterator no longer valid" ∧
    advance c8cfg (.afterStep false 1) c8stale 50 =
      .raised "Iterator no longer valid" :=
  ⟨(claim_C8 c8cfg c8stale 50 (by decide)).1,
    (claim_C8 c8cfg c8stale 50 (by decide)).2.1,
    (claim_C8 c8cfg c8stale 50 (by decide)).2.2.1 false 1⟩

/-! ## C3: progress accounting -/

theorem toRat_add {a b : Q} (ha : 0 < a.den) (hb : 0 < b.den) :
    (a.add b).toRat = a.toRat + b.toRat := by
  rw [Q.add, Q.toRat, Q.toRat, Q.toRat]
  have ha' : ((a.den : ℚ)) ≠ 0 := by positivity
  have hb' : ((b.den : ℚ)) ≠ 0 := by positivity
  field_simp

theorem toRat_sub {a b : Q} (ha : 0 < a.den) (hb : 0 < b.den) :
    (a.sub b).toRat = a.toRat - b.toRat := by
  rw [Q.sub, Q.toRat, Q.toRat, Q.toRat]
  have ha' : ((a.den : ℚ)) ≠ 0 := by positivity
  have hb' : ((b.den : ℚ)) ≠ 0 := by positivity
  field_simp
  try ring

theorem toRat_divNat {a : Q} (n : Nat) (ha : 0 < a.den) (hn : 0 < n) :
    (a.divNat n).toRat = a.toRat / (n : ℚ) := by
  rw [Q.divNat, Q.toRat, Q.toRat]
  have ha' : ((a.den : ℚ)) ≠ 0 := by positivity
  have hn' : ((n : ℚ)) ≠ 0 := by positivity
  push_cast
  field_simp

/-- The remaining-progress mass of the first `d` stack slots. -/
def stackSum (rem : List Q) (d : Nat) : ℚ := ((rem.take d).map Q.toRat).sum

theorem stackSum_set_ge (rem : List Q) (q : Q) {i d : Nat} (h : d ≤ i) :
    stackSum (rem.set i q) d = stackSum rem d := by
  rw [stackSum, stackSum, List.set_take]
  by_cases hlt : i < (rem.take d).length
  · have : d ≤ (rem.take d).length := by omega
    have : (rem.take d).length ≤ d := by
      simpa using List.length_take_le d rem
    omega
  · rw [List.set_eq_of_length_le (by omega)]

theorem stackSum_succ (rem : List Q) {d : Nat} (h : d < rem.length) :
    stackSum rem (d + 1) = stackSum rem d + (rem.getD d ⟨0, 1⟩).toRat := by
  rw [stackSum, stackSum, List.take_succ, List.getElem?_eq_getElem h]
  simp only [Option.toList_some, List.map_append, List.map_cons, List.map_nil,
    List.sum_append, List.sum_cons, List.sum_nil, add_zero]
  rw [getD_eq_getElem h]

/-- All progress quantities have positive (hence meaningful) denominators. -/
def densPos (s : SolverState) : Prop :=
  0 < s.counters.progressRatio.den ∧ 0 < s.counters.branchesIgnored.den ∧
    ∀ q ∈ s.progressRemainingStack, 0 < q.den

/-- The conserved quantity of C3 for an in-flight iterator:
`progressRatio + branchesIgnored`, plus the remaining progress of the
stack frames below the top, plus the top frame's remaining progress
(carried in `progressDelta` while the frame is new, in its
`_progressRemainingStack` slot afterwards), equals 1. -/
def progressInv (t : IterState) : Prop :=
  t.s.counters.progressRatio.toRat + t.s.counters.branchesIgnored.toRat +
    stackSum t.s.progressRemainingStack (t.recDepth - 1) +
    (if t.recDepth = 0 then 0
     else if t.isNewNode = true then t.progressDelta.toRat
     else (t.s.progressRemainingStack.getD (t.recDepth - 1) ⟨0, 1⟩).toRat) = 1


theorem stackSum_zero (rem : List Q) : stackSum rem 0 = 0 := rfl

/-- The invariant after a branch ends in a contradiction (the branch's
progress share moves into `progressRatio`). -/
theorem inv_leaf_contr (t' : IterState) (R : List Q) (PR BI : Q)
    (d count d2 : Nat)
    (hcount : ¬ count = 0)
    (hlen : d + 1 < R.length)
    (hd2 : d2 = if count ≠ 1 then d + 1 else d)
    (hPRden : 0 < PR.den) (hBIden : 0 < BI.den)
    (hrdens : ∀ q ∈ R, 0 < q.den)
    (hpre : PR.toRat + BI.toRat + stackSum R d + (R.getD d ⟨0, 1⟩).toRat = 1)
    (h1 : t'.s.counters.progressRatio =
      PR.add ((R.getD d ⟨0, 1⟩).divNat count))
    (h2 : t'.s.counters.branchesIgnored = BI)
    (h3 : t'.s.progressRemainingStack =
      R.set d ((R.getD d ⟨0, 1⟩).sub ((R.getD d ⟨0, 1⟩).divNat count)))
    (h4 : t'.recDepth = d2)
    (h5 : t'.isNewNode = false)
    (h6 : t'.progressDelta = (R.getD d ⟨0, 1⟩).divNat count) :
    progressInv t' ∧ densPos t'.s ∧ 0 < t'.progressDelta.den ∧
      t'.s.progressRemainingStack.length = R.length := by
  have hdlt : d < R.length := by omega
  have hrqden : 0 < (R.getD d ⟨0, 1⟩).den := hrdens _ (getD_mem_of_lt hdlt)
  have hcpos : 0 < count := Nat.pos_of_ne_zero hcount
  have hdden : 0 < ((R.getD d ⟨0, 1⟩).divNat count).den := by
    show 0 < (R.getD d ⟨0, 1⟩).den * count
    exact Nat.mul_pos hrqden hcpos
  have hsden : 0 <
      ((R.getD d ⟨0, 1⟩).sub ((R.getD d ⟨0, 1⟩).divNat count)).den := by
    show 0 < (R.getD d ⟨0, 1⟩).den * ((R.getD d ⟨0, 1⟩).divNat count).den
    exact Nat.mul_pos hrqden hdden
  have hsub : ((R.getD d ⟨0, 1⟩).sub ((R.getD d ⟨0, 1⟩).divNat count)).toRat =
      (R.getD d ⟨0, 1⟩).toRat - ((R.getD d ⟨0, 1⟩).divNat count).toRat :=
    toRat_sub hrqden hdden
  have haddPR : (PR.add ((R.getD d ⟨0, 1⟩).divNat count)).toRat =
      PR.toRat + ((R.getD d ⟨0, 1⟩).divNat count).toRat :=
    toRat_add hPRden hdden
  refine ⟨?_, ⟨?_, ?_, ?_⟩, by rw [h6]; exact hdden, ?_⟩
  · rw [progressInv, h1, h2, h3, h4, h5]
    by_cases hc1 : count = 1
    · rw [hd2, if_neg (by omega)]
      have hdel1 : ((R.getD d ⟨0, 1⟩).divNat count).toRat =
          (R.getD d ⟨0, 1⟩).toRat := by
        rw [hc1, toRat_divNat 1 hrqden (by omega)]
        simp
      by_cases hd0 : d = 0
      · subst hd0
        rw [if_pos rfl]
        rw [stackSum_zero] at hpre
        have : stackSum (R.set 0 ((R.getD 0 ⟨0, 1⟩).sub
            ((R.getD 0 ⟨0, 1⟩).divNat count))) (0 - 1) = 0 := stackSum_zero _
        rw [this]
        rw [haddPR, hdel1]
        linarith
      · rw [if_neg hd0, if_neg (by simp)]
        have hd1 : d - 1 < R.length := by omega
        have hset_ge : stackSum (R.set d ((R.getD d ⟨0, 1⟩).sub
            ((R.getD d ⟨0, 1⟩).divNat count))) (d - 1) =
            stackSum R (d - 1) := stackSum_set_ge R _ (by omega)
        have hget_ne : (R.set d ((R.getD d ⟨0, 1⟩).sub
            ((R.getD d ⟨0, 1⟩).divNat count))).getD (d - 1) ⟨0, 1⟩ =
            R.getD (d - 1) ⟨0, 1⟩ := getD_set_ne (by omega)
        have hsucc : stackSum R ((d - 1) + 1) =
            stackSum R (d - 1) + (R.getD (d - 1) ⟨0, 1⟩).toRat :=
          stackSum_succ R (by omega)
        rw [show (d - 1) + 1 = d by omega] at hsucc
        rw [hset_ge, hget_ne, haddPR, hdel1]
        rw [hsucc] at hpre
        linarith
    · rw [hd2, if_pos hc1]
      rw [if_neg (by omega), if_neg (by simp)]
      have hset_ge : stackSum (R.set d ((R.getD d ⟨0, 1⟩).sub
          ((R.getD d ⟨0, 1⟩).divNat count))) (d + 1 - 1) =
          stackSum R d := by
        rw [show d + 1 - 1 = d by omega]
        exact stackSum_set_ge R _ (le_refl d)
      have hget : (R.set d ((R.getD d ⟨0, 1⟩).sub
          ((R.getD d ⟨0, 1⟩).divNat count))).getD (d + 1 - 1) ⟨0, 1⟩ =
          (R.getD d ⟨0, 1⟩).sub ((R.getD d ⟨0, 1⟩).divNat count) := by
        rw [show d + 1 - 1 = d by omega]
        exact getD_set_self hdlt
      rw [hset_ge, hget, haddPR, hsub]
      linarith
  · rw [h1]
    show 0 < PR.den * ((R.getD d ⟨0, 1⟩).divNat count).den
    exact Nat.mul_pos hPRden hdden
  · rw [h2]
    exact hBIden
  · rw [h3]
    intro q hq
    rcases List.mem_or_eq_of_mem_set hq with hq1 | hq1
    · exact hrdens q hq1
    · rw [hq1]
      exact hsden
  · rw [h3]
    simp

/-- The invariant after a branch is pruned as uninteresting (the share
moves into `branchesIgnored`). -/
theorem inv_leaf_prune (t' : IterState) (R : List Q) (PR BI : Q)
    (d count d2 : Nat)
    (hcount : ¬ count = 0)
    (hlen : d + 1 < R.length)
    (hd2 : d2 = if count ≠ 1 then d + 1 else d)
    (hPRden : 0 < PR.den) (hBIden : 0 < BI.den)
    (hrdens : ∀ q ∈ R, 0 < q.den)
    (hpre : PR.toRat + BI.toRat + stackSum R d + (R.getD d ⟨0, 1⟩).toRat = 1)
    (h1 : t'.s.counters.progressRatio = PR)
    (h2 : t'.s.counters.branchesIgnored =
      BI.add ((R.getD d ⟨0, 1⟩).divNat count))
    (h3 : t'.s.progressRemainingStack =
      R.set d ((R.getD d ⟨0, 1⟩).sub ((R.getD d ⟨0, 1⟩).divNat count)))
    (h4 : t'.recDepth = d2)
    (h5 : t'.isNewNode = false)
    (h6 : t'.progressDelta = (R.getD d ⟨0, 1⟩).divNat count) :
    progressInv t' ∧ densPos t'.s ∧ 0 < t'.progressDelta.den ∧
      t'.s.progressRemainingStack.length = R.length := by
  have hdlt : d < R.length := by omega
  have hrqden : 0 < (R.getD d ⟨0, 1⟩).den := hrdens _ (getD_mem_of_lt hdlt)
  have hcpos : 0 < count := Nat.pos_of_ne_zero hcount
  have hdden : 0 < ((R.getD d ⟨0, 1⟩).divNat count).den := by
    show 0 < (R.getD d ⟨0, 1⟩).den * count
    exact Nat.mul_pos hrqden hcpos
  have hsden : 0 <
      ((R.getD d ⟨0, 1⟩).sub ((R.getD d ⟨0, 1⟩).divNat count)).den := by
    show 0 < (R.getD d ⟨0, 1⟩).den * ((R.getD d ⟨0, 1⟩).divNat count).den
    exact Nat.mul_pos hrqden hdden
  have hsub : ((R.getD d ⟨0, 1⟩).sub ((R.getD d ⟨0, 1⟩).divNat count)).toRat =
      (R.getD d ⟨0, 1⟩).toRat - ((R.getD d ⟨0, 1⟩).divNat count).toRat :=
    toRat_sub hrqden hdden
  have haddBI : (BI.add ((R.getD d ⟨0, 1⟩).divNat count)).toRat =
      BI.toRat + ((R.getD d ⟨0, 1⟩).divNat count).toRat :=
    toRat_add hBIden hdden
  refine ⟨?_, ⟨?_, ?_, ?_⟩, by rw [h6]; exact hdden, ?_⟩
  · rw [progressInv, h1, h2, h3, h4, h5]
    by_cases hc1 : count = 1
    · rw [hd2, if_neg (by omega)]
      have hdel1 : ((R.getD d ⟨0, 1⟩).divNat count).toRat =
          (R.getD d ⟨0, 1⟩).toRat := by
        rw [hc1, toRat_divNat 1 hrqden (by omega)]
        simp
      by_cases hd0 : d = 0
      · subst hd0
        rw [if_pos rfl]
        rw [stackSum_zero] at hpre
        have : stackSum (R.set 0 ((R.getD 0 ⟨0, 1⟩).sub
            ((R.getD 0 ⟨0, 1⟩).divNat count))) (0 - 1) = 0 := stackSum_zero _
        rw [this]
        rw [haddBI, hdel1]
        linarith
      · rw [if_neg hd0, if_neg (by simp)]
        have hset_ge : stackSum (R.set d ((R.getD d ⟨0, 1⟩).sub
            ((R.getD d ⟨0, 1⟩).divNat count))) (d - 1) =
            stackSum R (d - 1) := stackSum_set_ge R _ (by omega)
        have hget_ne : (R.set d ((R.getD d ⟨0, 1⟩).sub
            ((R.getD d ⟨0, 1⟩).divNat count))).getD (d - 1) ⟨0, 1⟩ =
            R.getD (d - 1) ⟨0, 1⟩ := getD_set_ne (by omega)
        have hsucc : stackSum R ((d - 1) + 1) =
            stackSum R (d - 1) + (R.getD (d - 1) ⟨0, 1⟩).toRat :=
          stackSum_succ R (by omega)
        rw [show (d - 1) + 1 = d by omega] at hsucc
        rw [hset_ge, hget_ne, haddBI, hdel1]
        rw [hsucc] at hpre
        linarith
    · rw [hd2, if_pos hc1]
      rw [if_neg (by omega), if_neg (by simp)]
      have hset_ge : stackSum (R.set d ((R.getD d ⟨0, 1⟩).sub
          ((R.getD d ⟨0, 1⟩).divNat count))) (d + 1 - 1) =
          stackSum R d := by
        rw [show d + 1 - 1 = d by omega]
        exact stackSum_set_ge R _ (le_refl d)
      have hget : (R.set d ((R.getD d ⟨0, 1⟩).sub
          ((R.getD d ⟨0, 1⟩).divNat count))).getD (d + 1 - 1) ⟨0, 1⟩ =
          (R.getD d ⟨0, 1⟩).sub ((R.getD d ⟨0, 1⟩).divNat count) := by
        rw [show d + 1 - 1 = d by omega]
        exact getD_set_self hdlt
      rw [hset_ge, hget, haddBI, hsub]
      linarith
  · rw [h1]
    exact hPRden
  · rw [h2]
    show 0 < BI.den * ((R.getD d ⟨0, 1⟩).divNat count).den
    exact Nat.mul_pos hBIden hdden
  · rw [h3]
    intro q hq
    rcases List.mem_or_eq_of_mem_set hq with hq1 | hq1
    · exact hrdens q hq1
    · rw [hq1]
      exact hsden
  · rw [h3]
    simp

/-- The invariant after a new frame is pushed (the share travels into the
new top frame's `progressDelta`). -/
theorem inv_leaf_push (t' : IterState) (R : List Q) (PR BI : Q)
    (d count d2 : Nat)
    (hcount : ¬ count = 0)
    (hlen : d + 1 < R.length)
    (hd2 : d2 = if count ≠ 1 then d + 1 else d)
    (hPRden : 0 < PR.den) (hBIden : 0 < BI.den)
    (hrdens : ∀ q ∈ R, 0 < q.den)
    (hpre : PR.toRat + BI.toRat + stackSum R d + (R.getD d ⟨0, 1⟩).toRat = 1)
    (h1 : t'.s.counters.progressRatio = PR)
    (h2 : t'.s.counters.branchesIgnored = BI)
    (h3 : t'.s.progressRemainingStack =
      R.set d ((R.getD d ⟨0, 1⟩).sub ((R.getD d ⟨0, 1⟩).divNat count)))
    (h4 : t'.recDepth = d2 + 1)
    (h5 : t'.isNewNode = true)
    (h6 : t'.progressDelta = (R.getD d ⟨0, 1⟩).divNat count) :
    progressInv t' ∧ densPos t'.s ∧ 0 < t'.progressDelta.den ∧
      t'.s.progressRemainingStack.length = R.length := by
  have hdlt : d < R.length := by omega
  have hrqden : 0 < (R.getD d ⟨0, 1⟩).den := hrdens _ (getD_mem_of_lt hdlt)
  have hcpos : 0 < count := Nat.pos_of_ne_zero hcount
  have hdden : 0 < ((R.getD d ⟨0, 1⟩).divNat count).den := by
    show 0 < (R.getD d ⟨0, 1⟩).den * count
    exact Nat.mul_pos hrqden hcpos
  have hsden : 0 <
      ((R.getD d ⟨0, 1⟩).sub ((R.getD d ⟨0, 1⟩).divNat count)).den := by
    show 0 < (R.getD d ⟨0, 1⟩).den * ((R.getD d ⟨0, 1⟩).divNat count).den
    exact Nat.mul_pos hrqden hdden
  have hsub : ((R.getD d ⟨0, 1⟩).sub ((R.getD d ⟨0, 1⟩).divNat count)).toRat =
      (R.getD d ⟨0, 1⟩).toRat - ((R.getD d ⟨0, 1⟩).divNat count).toRat :=
    toRat_sub hrqden hdden
  refine ⟨?_, ⟨?_, ?_, ?_⟩, by rw [h6]; exact hdden, ?_⟩
  · rw [progressInv, h1, h2, h3, h4, h5, h6]
    rw [if_neg (by omega), if_pos rfl]
    by_cases hc1 : count = 1
    · have hdel1 : ((R.getD d ⟨0, 1⟩).divNat count).toRat =
          (R.getD d ⟨0, 1⟩).toRat := by
        rw [hc1, toRat_divNat 1 hrqden (by omega)]
        simp
      rw [hd2, if_neg (by omega)]
      have hset_ge : stackSum (R.set d ((R.getD d ⟨0, 1⟩).sub
          ((R.getD d ⟨0, 1⟩).divNat count))) (d + 1 - 1) =
          stackSum R d := by
        rw [show d + 1 - 1 = d by omega]
        exact stackSum_set_ge R _ (le_refl d)
      rw [hset_ge, hdel1]
      linarith
    · rw [hd2, if_pos hc1]
      have hsucc : stackSum (R.set d ((R.getD d ⟨0, 1⟩).sub
          ((R.getD d ⟨0, 1⟩).divNat count))) (d + 1) =
          stackSum R d + ((R.getD d ⟨0, 1⟩).sub
            ((R.getD d ⟨0, 1⟩).divNat count)).toRat := by
        rw [stackSum_succ _ (by simpa using hdlt), getD_set_self hdlt,
          stackSum_set_ge R _ (le_refl d)]
      rw [show d + 1 + 1 - 1 = d + 1 by omega, hsucc, hsub]
      linarith
  · rw [h1]
    exact hPRden
  · rw [h2]
    exact hBIden
  · rw [h3]
    intro q hq
    rcases List.mem_or_eq_of_mem_set hq with hq1 | hq1
    · exact hrdens q hq1
    · rw [hq1]
      exact hsden
  · rw [h3]
    simp

/-- The invariant after a solution is emitted (the top frame's share moves
into `progressRatio`). -/
theorem inv_leaf_solution (t' : IterState) (R : List Q) (PR BI delta : Q)
    (R0 : Nat)
    (h0 : ¬ R0 = 0)
    (hlen : R0 < R.length)
    (hPRden : 0 < PR.den) (hBIden : 0 < BI.den) (hdden : 0 < delta.den)
    (hrdens : ∀ q ∈ R, 0 < q.den)
    (hpre : PR.toRat + BI.toRat + stackSum R (R0 - 1) + delta.toRat = 1)
    (h1 : t'.s.counters.progressRatio = PR.add delta)
    (h2 : t'.s.counters.branchesIgnored = BI)
    (h3 : t'.s.progressRemainingStack = R)
    (h4 : t'.recDepth = R0 - 1)
    (h5 : t'.isNewNode = false)
    (h6 : t'.progressDelta = delta) :
    progressInv t' ∧ densPos t'.s ∧ 0 < t'.progressDelta.den ∧
      t'.s.progressRemainingStack.length = R.length := by
  have haddPR : (PR.add delta).toRat = PR.toRat + delta.toRat :=
    toRat_add hPRden hdden
  refine ⟨?_, ⟨?_, ?_, ?_⟩, by rw [h6]; exact hdden, by rw [h3]⟩
  · rw [progressInv, h1, h2, h3, h4, h5]
    by_cases hR1 : R0 - 1 = 0
    · rw [if_pos hR1, hR1, stackSum_zero]
      rw [hR1, stackSum_zero] at hpre
      rw [haddPR]
      linarith
    · rw [if_neg hR1, if_neg (by simp)]
      have hsucc : stackSum R ((R0 - 1 - 1) + 1) =
          stackSum R (R0 - 1 - 1) + (R.getD (R0 - 1 - 1) ⟨0, 1⟩).toRat :=
        stackSum_succ R (by omega)
      rw [show (R0 - 1 - 1) + 1 = R0 - 1 by omega] at hsucc
      rw [hsucc] at hpre
      rw [haddPR]
      linarith
  · rw [h1]
    show 0 < PR.den * delta.den
    exact Nat.mul_pos hPRden hdden
  · rw [h2]
    exact hBIden
  · rw [h3]
    exact hrdens

/-- Invariant carried by every outcome of one loop iteration. -/
def stepOutInv (n : Nat) (out : StepOut) : Prop :=
  match out with
  | .next t' => progressInv t' ∧ densPos t'.s ∧ 0 < t'.progressDelta.den ∧
      t'.s.progressRemainingStack.length = n
  | .yielded _ _ t' => progressInv t' ∧ densPos t'.s ∧ 0 < t'.progressDelta.den ∧
      t'.s.progressRemainingStack.length = n
  | .finished t' =>
      t'.s.counters.progressRatio.toRat +
        t'.s.counters.branchesIgnored.toRat = 1 ∧ t'.s.done = true
  | .stuck _ => True

set_option pp.deepTerms false in
set_option pp.maxSteps 512 in
theorem stepOutInv_ite (n : Nat) (c : Prop) [Decidable c] (a b : StepOut)
    (ha : stepOutInv n a) (hb : stepOutInv n b) :
    stepOutInv n (if c then a else b) := by
  split
  · exact ha
  · exact hb

theorem afterPropagation_true (cfg : Solver) (t : IterState) (nd : Nat) :
    afterPropagation cfg t nd true = t := rfl

theorem stepOutInv_next_ite (n : Nat) (c : Prop) [Decidable c]
    (a b : IterState)
    (ha : stepOutInv n (.next a)) (hb : stepOutInv n (.next b)) :
    stepOutInv n (.next (if c then a else b)) := by
  split
  · exact ha
  · exact hb

theorem applySelection_inv (cfg : Solver) (t : IterState) (d cellDepth : Nat)
    (sel : List Nat × Nat × Nat × List (Option HouseResult) × List Nat)
    (n : Nat)
    (hcount : ¬ sel.2.2.1 = 0)
    (hlen : d + 1 < t.s.progressRemainingStack.length)
    (hyw : ¬ t.yieldWhen = 1)
    (hpre : t.s.counters.progressRatio.toRat +
      t.s.counters.branchesIgnored.toRat +
      stackSum t.s.progressRemainingStack d +
      (t.s.progressRemainingStack.getD d ⟨0, 1⟩).toRat = 1)
    (hdens : densPos t.s)
    (hnlen : t.s.progressRemainingStack.length = n) :
    stepOutInv n (applySelection cfg t d cellDepth sel) := by
  subst hnlen
  rw [applySelection]
  dsimp only
  rw [if_neg hcount, if_neg hyw]
  split
  · exact trivial
  · rename_i ok hok
    cases ok with
    | false =>
      simp only [Bool.not_false]
      refine stepOutInv_ite _ _ _ _ ?_ ?_
      · refine inv_leaf_contr _ t.s.progressRemainingStack _ _ d sel.2.2.1 _
          hcount hlen rfl hdens.1 hdens.2.1 hdens.2.2 hpre ?_ ?_ ?_ ?_ ?_ ?_ <;> rfl
      · rw [if_neg hyw, afterPropagation_true]
        refine inv_leaf_contr _ t.s.progressRemainingStack _ _ d sel.2.2.1 _
          hcount hlen rfl hdens.1 hdens.2.1 hdens.2.2 hpre ?_ ?_ ?_ ?_ ?_ ?_ <;> rfl
    | true =>
      simp only [Bool.not_true, Bool.false_eq_true, false_and, if_false]
      rw [if_neg hyw, afterPropagation]
      dsimp only
      rw [if_neg (show ¬(false = true) by simp)]
      refine stepOutInv_next_ite _ _ _ _ ?_ ?_
      · refine inv_leaf_push _ t.s.progressRemainingStack _ _ d sel.2.2.1 _
          hcount hlen rfl hdens.1 hdens.2.1 hdens.2.2 hpre ?_ ?_ ?_ ?_ ?_ ?_ <;> rfl
      · refine inv_leaf_prune _ t.s.progressRemainingStack _ _ d sel.2.2.1 _
          hcount hlen rfl hdens.1 hdens.2.1 hdens.2.2 hpre ?_ ?_ ?_ ?_ ?_ ?_ <;> rfl

/-- The candidate selection the next loop iteration of `t` will perform. -/
def selAt (cfg : Solver) (t : IterState) :
    List Nat × Nat × Nat × List (Option HouseResult) × List Nat :=
  selectNextCandidate cfg.C t.s.backtrackTriggers t.s.selState t.s.cellOrder
    (t.s.grids.getD (t.recDepth - 1) []) (t.s.recStack.getD (t.recDepth - 1) 0)
    t.s.stepState t.isNewNode

theorem loopStep_inv (cfg : Solver) (t : IterState)
    (hinv : progressInv t) (hdens : densPos t.s)
    (hpd : 0 < t.progressDelta.den)
    (hlen : t.recDepth < t.s.progressRemainingStack.length)
    (hyw : ¬ t.yieldWhen = 1)
    (hcnz : ¬ (selAt cfg t).2.2.1 = 0) :
    stepOutInv t.s.progressRemainingStack.length (loopStep cfg t) := by
  rw [loopStep]
  by_cases h0 : t.recDepth = 0
  · rw [if_pos h0]
    refine ⟨?_, rfl⟩
    have h1 := hinv
    rw [progressInv, h0] at h1
    rw [if_pos rfl] at h1
    rw [show (0 : Nat) - 1 = 0 by omega, stackSum_zero] at h1
    show t.s.counters.progressRatio.toRat +
      t.s.counters.branchesIgnored.toRat = 1
    linarith
  · rw [if_neg h0]
    dsimp only
    split
    · rename_i hsol
      have h1 := hinv
      rw [progressInv] at h1
      rw [if_neg h0, if_pos hsol.1] at h1
      refine inv_leaf_solution _ t.s.progressRemainingStack _ _ t.progressDelta
        t.recDepth h0 hlen hdens.1 hdens.2.1 hpd hdens.2.2 h1
        ?_ ?_ ?_ ?_ ?_ ?_ <;> rfl
    · rename_i hsol
      by_cases hn : t.isNewNode = true
      · rw [if_pos hn]
        have hd1 : t.recDepth - 1 < t.s.progressRemainingStack.length := by
          omega
        have h1 := hinv
        rw [progressInv] at h1
        rw [if_neg h0, if_pos hn] at h1
        refine applySelection_inv cfg _ (t.recDepth - 1) _ _ _
          ?_ ?_ hyw ?_ ?_ ?_
        · exact hcnz
        · show t.recDepth - 1 + 1 <
            (t.s.progressRemainingStack.set (t.recDepth - 1)
              t.progressDelta).length
          rw [List.length_set]
          omega
        · show t.s.counters.progressRatio.toRat +
            t.s.counters.branchesIgnored.toRat +
            stackSum (t.s.progressRemainingStack.set (t.recDepth - 1)
              t.progressDelta) (t.recDepth - 1) +
            ((t.s.progressRemainingStack.set (t.recDepth - 1)
              t.progressDelta).getD (t.recDepth - 1) ⟨0, 1⟩).toRat = 1
          rw [stackSum_set_ge _ _ (le_refl _), getD_set_self hd1]
          exact h1
        · refine ⟨hdens.1, hdens.2.1, ?_⟩
          show ∀ q ∈ t.s.progressRemainingStack.set (t.recDepth - 1)
            t.progressDelta, 0 < q.den
          intro q hq
          rcases List.mem_or_eq_of_mem_set hq with hq1 | hq1
          · exact hdens.2.2 q hq1
          · rw [hq1]
            exact hpd
        · show (t.s.progressRemainingStack.set (t.recDepth - 1)
            t.progressDelta).length = t.s.progressRemainingStack.length
          rw [List.length_set]
      · rw [if_neg hn]
        have h1 := hinv
        rw [progressInv] at h1
        rw [if_neg h0, if_neg hn] at h1
        refine applySelection_inv cfg _ (t.recDepth - 1) _ _ _
          hcnz (by omega) hyw h1 hdens rfl

/-- C3 (amended: the conservation law holds for every loop iteration whose
candidate selection returns a nonzero count; a `count = 0` selection — a
cell whose candidate mask is empty, e.g. after the initial propagation,
whose result `run` line 614 discards, wiped a cell — drops the popped
frame's remaining share, so the totals can fall short of 1): in
solution/contradiction yield modes, `progressRatio + branchesIgnored` plus
the live frames' remaining progress (the top frame's share sits in
`progressDelta` while the frame is new) equals 1, is preserved by every
`loopStep` with nonzero selection count, and on termination
`progressRatio + branchesIgnored = 1` exactly; the invariant holds at loop
entry, where the root frame carries share 1. -/
theorem claim_C3 (cfg : Solver) (t : IterState)
    (hinv : progressInv t) (hdens : densPos t.s)
    (hpd : 0 < t.progressDelta.den)
    (hlen : t.recDepth < t.s.progressRemainingStack.length)
    (hyw : ¬ t.yieldWhen = 1)
    (hcnz : ¬ (selAt cfg t).2.2.1 = 0) :
    stepOutInv t.s.progressRemainingStack.length (loopStep cfg t) ∧
    (∀ t0 : IterState, t0.recDepth = 1 → t0.isNewNode = true →
      t0.progressDelta = ⟨1, 1⟩ →
      t0.s.counters.progressRatio = ⟨0, 1⟩ →
      t0.s.counters.branchesIgnored = ⟨0, 1⟩ → progressInv t0) := by
  refine ⟨loopStep_inv cfg t hinv hdens hpd hlen hyw hcnz, ?_⟩
  intro t0 e1 e2 e3 e4 e5
  rw [progressInv, e1, e2, e3, e4, e5]
  rw [if_neg (by omega), if_pos rfl]
  rw [show (1 : Nat) - 1 = 0 by omega, stackSum_zero]
  show (0 : ℚ) / 1 + 0 / 1 + 0 + 1 / 1 = 1
  norm_num

def c3cfg : Solver :=
  ⟨1, [⟨[0], [], true, fun g a => (false, g.set 0 0, a), fun g => (true, g)⟩],
    ⟨[[0]], [[]], [0]⟩, ⟨1, [], [[]]⟩, [3], [0], 10⟩

def c3entry : IterState :=
  ⟨{ grids := [[3], [0]], recStack := [0, 0],
     progressRemainingStack := [⟨1, 1⟩, ⟨0, 1⟩],
     backtrackTriggers := [0], counters := zeroCounters, runCounter := 1,
     atStart := false, done := false, uninterestingValues := none,
     cellOrder := [0], selState := [none], stepState := none,
     handlerAcc := AccState.mk0 1 }, 1, true, ⟨1, 1⟩, [-1], 0, 1, 0⟩

theorem claim_C3_witness :
    stepOutInv c3entry.s.progressRemainingStack.length
      (loopStep c3cfg c3entry) ∧
    (∀ t0 : IterState, t0.recDepth = 1 → t0.isNewNode = true →
      t0.progressDelta = ⟨1, 1⟩ →
      t0.s.counters.progressRatio = ⟨0, 1⟩ →
      t0.s.counters.branchesIgnored = ⟨0, 1⟩ → progressInv t0) :=
  claim_C3 c3cfg c3entry
    (by
      rw [progressInv]
      show (0 : ℚ) / 1 + 0 / 1 + stackSum [⟨1, 1⟩, ⟨0, 1⟩] 0 +
        (if (1 : Nat) = 0 then 0
         else if true = true then (1 : ℚ) / 1
         else ((([⟨1, 1⟩, ⟨0, 1⟩] : List Q).getD 0 ⟨0, 1⟩).toRat)) = 1
      rw [stackSum_zero, if_neg (by omega), if_pos rfl]
      norm_num)
    (by
      refine ⟨by decide, by decide, ?_⟩
      intro q hq
      fin_cases hq <;> decide)
    (by decide) (by decide) (by decide) (by decide)

def c3out : AdvOut := startRun c3cfg (initialSolverState c3cfg) 0 50

def c3fin : IterState :=
  match c3out with
  | .finished t => t
  | _ => ⟨initialSolverState c3cfg, 0, false, ⟨1, 1⟩, [], 0, 0, 0⟩

/-- C3 counterexample. -/
theorem claim_C3_counterexample :
    c3out.isFinished = true ∧
    c3fin.s.done = true ∧
    c3fin.s.counters.progressRatio.eqv ⟨0, 1⟩ ∧
    c3fin.s.counters.branchesIgnored.eqv ⟨0, 1⟩ ∧
    ¬ (c3fin.s.counters.progressRatio.add
        c3fin.s.counters.branchesIgnored).eqv ⟨1, 1⟩ := by
  refine ⟨by decide, by decide, by decide, by decide, by decide⟩

/-! ## C6: guess bookkeeping -/

theorem and_div_two (a b : Nat) : (a &&& b) / 2 = (a / 2) &&& (b / 2) := by
  apply Nat.eq_of_testBit_eq
  intro i
  rw [Nat.testBit_div_two, Nat.testBit_and, Nat.testBit_and,
    Nat.testBit_div_two, Nat.testBit_div_two]

theorem or_div_two (a b : Nat) : (a ||| b) / 2 = (a / 2) ||| (b / 2) := by
  apply Nat.eq_of_testBit_eq
  intro i
  rw [Nat.testBit_div_two, Nat.testBit_or, Nat.testBit_or,
    Nat.testBit_div_two, Nat.testBit_div_two]

theorem add_eq_or_of_and_eq_zero :
    ∀ (n a b : Nat), a < 2 ^ n → a &&& b = 0 → a + b = a ||| b := by
  intro n
  induction n with
  | zero =>
    intro a b ha h
    have : a = 0 := by omega
    subst this
    simp
  | succ n ih =>
    intro a b ha h
    have h2 : (a / 2) &&& (b / 2) = 0 := by
      rw [← and_div_two, h]
    have ha2 : a / 2 < 2 ^ n := by omega
    have ih2 := ih (a / 2) (b / 2) ha2 h2
    have hbit : ¬ (a % 2 = 1 ∧ b % 2 = 1) := by
      rintro ⟨e1, e2⟩
      have t1 : a.testBit 0 = true := Nat.mod_two_eq_one_iff_testBit_zero.mp e1
      have t2 : b.testBit 0 = true := Nat.mod_two_eq_one_iff_testBit_zero.mp e2
      have t3 : (a &&& b).testBit 0 = true := by
        rw [Nat.testBit_and, t1, t2]
        rfl
      rw [h] at t3
      simp at t3
    have hm : (a ||| b) % 2 = a % 2 + b % 2 := by
      have t0 : (a ||| b).testBit 0 = (a.testBit 0 || b.testBit 0) :=
        Nat.testBit_or a b 0
      have hma := Nat.mod_two_eq_zero_or_one a
      have hmb := Nat.mod_two_eq_zero_or_one b
      rcases t1 : a.testBit 0 with _ | _ <;> rcases t2 : b.testBit 0 with _ | _
      · have m1 : a % 2 = 0 := Nat.mod_two_eq_zero_iff_testBit_zero.mpr t1
        have m2 : b % 2 = 0 := Nat.mod_two_eq_zero_iff_testBit_zero.mpr t2
        have mo : (a ||| b) % 2 = 0 := by
          refine Nat.mod_two_eq_zero_iff_testBit_zero.mpr ?_
          rw [t0, t1, t2]
          rfl
        omega
      · have m1 : a % 2 = 0 := Nat.mod_two_eq_zero_iff_testBit_zero.mpr t1
        have m2 : b % 2 = 1 := Nat.mod_two_eq_one_iff_testBit_zero.mpr t2
        have mo : (a ||| b) % 2 = 1 := by
          refine Nat.mod_two_eq_one_iff_testBit_zero.mpr ?_
          rw [t0, t1, t2]
          rfl
        omega
      · have m1 : a % 2 = 1 := Nat.mod_two_eq_one_iff_testBit_zero.mpr t1
        have m2 : b % 2 = 0 := Nat.mod_two_eq_zero_iff_testBit_zero.mpr t2
        have mo : (a ||| b) % 2 = 1 := by
          refine Nat.mod_two_eq_one_iff_testBit_zero.mpr ?_
          rw [t0, t1, t2]
          rfl
        omega
      · have m1 : a % 2 = 1 := Nat.mod_two_eq_one_iff_testBit_zero.mpr t1
        have m2 : b % 2 = 1 := Nat.mod_two_eq_one_iff_testBit_zero.mpr t2
        exact absurd ⟨m1, m2⟩ hbit
    have hd := or_div_two a b
    have hsa := Nat.div_add_mod a 2
    have hsb := Nat.div_add_mod b 2
    have hso := Nat.div_add_mod (a ||| b) 2
    omega

theorem xor_and_eq_zero {a b : Nat} (h : b &&& a = b) : (a ^^^ b) &&& b = 0 := by
  apply Nat.eq_of_testBit_eq
  intro i
  have hsub : b.testBit i = true → a.testBit i = true := by
    intro hb
    have := congrArg (fun x => Nat.testBit x i) h
    simp only [Nat.testBit_and] at this
    rw [hb] at this
    simp only [Bool.true_and] at this
    exact this
  simp only [Nat.testBit_and, Nat.testBit_xor, Nat.zero_testBit]
  cases hb : b.testBit i with
  | false => simp
  | true =>
    rw [hsub hb]
    simp

theorem xor_or_eq {a b : Nat} (h : b &&& a = b) : (a ^^^ b) ||| b = a := by
  apply Nat.eq_of_testBit_eq
  intro i
  have hsub : b.testBit i = true → a.testBit i = true := by
    intro hb
    have := congrArg (fun x => Nat.testBit x i) h
    simp only [Nat.testBit_and] at this
    rw [hb] at this
    simp only [Bool.true_and] at this
    exact this
  simp only [Nat.testBit_or, Nat.testBit_xor]
  cases hb : b.testBit i with
  | false => simp
  | true =>
    rw [hsub hb]
    simp

/-- Removing a contained value from a mask: `mask ^ value` is exactly
`mask - value`, and the two halves partition the mask. -/
theorem xor_sub_of_contained {mask value : Nat} (h : value &&& mask = value) :
    (mask ^^^ value) + value = mask ∧ mask ^^^ value = mask - value := by
  have h1 : (mask ^^^ value) &&& value = 0 := xor_and_eq_zero h
  have h2 : (mask ^^^ value) ||| value = mask := xor_or_eq h
  have h3 : (mask ^^^ value) + value = mask := by
    rw [add_eq_or_of_and_eq_zero (mask ^^^ value) (mask ^^^ value) value
      (Nat.lt_two_pow _) h1]
    exact h2
  exact ⟨h3, by omega⟩

/-- The state every iterator event points at. -/
def StepOut.state : StepOut → IterState
  | .finished t => t
  | .next t => t
  | .yielded _ _ t => t
  | .stuck t => t

/-- The guess/in-place dichotomy of C6, as a predicate of the state the
loop body reaches: with `count > 1` a guess (counted, parent keeps
`mask ^ value`, child at the next depth holds exactly `value` and is then
propagated, a new frame appears); with `count = 1` an in-place assignment
(no guess counted, no copy, only the current depth's grid touched). -/
def C6Concl (cfg : Solver) (G : List (List Nat)) (d count cell value g : Nat)
    (grid : List Nat) (gic : Bool) (t' : IterState) : Prop :=
  (¬ count = 1 →
    t'.s.counters.guesses = g + 1 ∧
    t'.s.grids.getD d [] = grid.set cell (grid.getD cell 0 ^^^ value) ∧
    (grid.set cell (grid.getD cell 0 ^^^ value)).getD cell 0 =
      grid.getD cell 0 ^^^ value ∧
    ((grid.set cell (grid.getD cell 0 ^^^ value)).set cell value).getD
      cell 0 = value ∧
    (value &&& grid.getD cell 0 = value →
      grid.getD cell 0 ^^^ value = grid.getD cell 0 - value ∧
      (grid.getD cell 0 ^^^ value) + value = grid.getD cell 0) ∧
    d + 1 ≤ t'.recDepth ∧
    (∃ acc2 cp2,
      t'.s.grids.getD (d + 1) [] =
        (enforceConstraints cfg.handlers cfg.enforceFuel
          ((grid.set cell (grid.getD cell 0 ^^^ value)).set cell value)
          gic acc2 cp2).grid ∨
      t'.s.grids.getD (d + 1) [] =
        (grid.set cell (grid.getD cell 0 ^^^ value)).set cell value)) ∧
  (count = 1 →
    t'.s.counters.guesses = g ∧
    (∃ acc2 cp2,
      t'.s.grids.getD d [] =
        (enforceConstraints cfg.handlers cfg.enforceFuel
          (grid.set cell value) gic acc2 cp2).grid ∨
      t'.s.grids.getD d [] = grid.set cell value) ∧
    (∀ j, ¬ j = d → t'.s.grids.getD j [] = G.getD j []) ∧
    t'.s.grids.length = G.length ∧
    t'.recDepth ≤ d + 1)

theorem C6Concl_ite (cfg : Solver) (G : List (List Nat))
    (d count cell value g : Nat) (grid : List Nat) (gic : Bool)
    (c : Prop) [Decidable c] (a b : IterState)
    (ha : C6Concl cfg G d count cell value g grid gic a)
    (hb : C6Concl cfg G d count cell value g grid gic b) :
    C6Concl cfg G d count cell value g grid gic (if c then a else b) := by
  split
  · exact ha
  · exact hb

theorem C6_leaf (cfg : Solver) (t' : IterState) (G : List (List Nat))
    (d count cell value : Nat) (grid : List Nat) (g : Nat)
    (gic : Bool) (acc : AccState) (cp : Nat)
    (hdg : d + 1 < G.length)
    (hcell : cell < grid.length)
    (hgr : t'.s.grids =
      (if count ≠ 1 then
        (G.set d (grid.set cell (grid.getD cell 0 ^^^ value))).set (d + 1)
          ((grid.set cell (grid.getD cell 0 ^^^ value)).set cell value)
      else G.set d (grid.set cell value)).set
        (if count ≠ 1 then d + 1 else d)
        (enforceConstraints cfg.handlers cfg.enforceFuel
          ((if count ≠ 1 then
            (G.set d (grid.set cell (grid.getD cell 0 ^^^ value))).set (d + 1)
              ((grid.set cell (grid.getD cell 0 ^^^ value)).set cell value)
          else G.set d (grid.set cell value)).getD
            (if count ≠ 1 then d + 1 else d) [])
          gic acc cp).grid)
    (hgu : t'.s.counters.guesses = if count ≠ 1 then g + 1 else g)
    (hrd : t'.recDepth = (if count ≠ 1 then d + 1 else d) ∨
      t'.recDepth = (if count ≠ 1 then d + 1 else d) + 1) :
    C6Concl cfg G d count cell value g grid gic t' := by
  rw [C6Concl]
  constructor
  · intro hc1
    have hcn : count ≠ 1 := hc1
    rw [if_pos hcn] at hgu
    rw [if_pos hcn, if_pos hcn] at hgr
    have hinner : ((G.set d (grid.set cell (grid.getD cell 0 ^^^ value))).set
        (d + 1) ((grid.set cell (grid.getD cell 0 ^^^ value)).set cell
          value)).getD (d + 1) [] =
        (grid.set cell (grid.getD cell 0 ^^^ value)).set cell value := by
      refine getD_set_self ?_
      simp only [List.length_set]
      omega
    refine ⟨hgu, ?_, getD_set_self hcell,
      getD_set_self (by simp only [List.length_set]; exact hcell),
      fun hcont => ⟨(xor_sub_of_contained hcont).2,
        (xor_sub_of_contained hcont).1⟩, ?_, ?_⟩
    · rw [hgr, getD_set_ne (by omega), getD_set_ne (by omega)]
      exact getD_set_self (by omega)
    · rcases hrd with h | h <;> rw [if_pos hcn] at h <;> omega
    · refine ⟨acc, cp, Or.inl ?_⟩
      rw [hgr, hinner]
      refine getD_set_self ?_
      simp only [List.length_set]
      omega
  · intro hc1
    have hcn : ¬ (count ≠ 1) := fun h => h hc1
    rw [if_neg hcn] at hgu
    rw [if_neg hcn, if_neg hcn] at hgr
    have hinner : (G.set d (grid.set cell value)).getD d [] =
        grid.set cell value := getD_set_self (by omega)
    rw [List.set_set] at hgr
    refine ⟨hgu, ⟨acc, cp, Or.inl ?_⟩, ?_, ?_, ?_⟩
    · rw [hgr, hinner]
      exact getD_set_self (by omega)
    · intro j hj
      rw [hgr, getD_set_ne (fun hh => hj hh.symm)]
    · rw [hgr]
      simp only [List.length_set]
    · rcases hrd with h | h <;> rw [if_neg hcn] at h <;> omega

theorem C6_leaf_stuck (cfg : Solver) (t' : IterState) (G : List (List Nat))
    (d count cell value : Nat) (grid : List Nat) (g : Nat) (gic : Bool)
    (hdg : d + 1 < G.length)
    (hcell : cell < grid.length)
    (hgr : t'.s.grids =
      if count ≠ 1 then
        (G.set d (grid.set cell (grid.getD cell 0 ^^^ value))).set (d + 1)
          ((grid.set cell (grid.getD cell 0 ^^^ value)).set cell value)
      else G.set d (grid.set cell value))
    (hgu : t'.s.counters.guesses = if count ≠ 1 then g + 1 else g)
    (hrd : t'.recDepth = (if count ≠ 1 then d + 1 else d) ∨
      t'.recDepth = (if count ≠ 1 then d + 1 else d) + 1) :
    C6Concl cfg G d count cell value g grid gic t' := by
  rw [C6Concl]
  constructor
  · intro hc1
    have hcn : count ≠ 1 := hc1
    rw [if_pos hcn] at hgu
    rw [if_pos hcn] at hgr
    refine ⟨hgu, ?_, getD_set_self hcell,
      getD_set_self (by simp only [List.length_set]; exact hcell),
      fun hcont => ⟨(xor_sub_of_contained hcont).2,
        (xor_sub_of_contained hcont).1⟩, ?_, ?_⟩
    · rw [hgr, getD_set_ne (by omega)]
      exact getD_set_self (by omega)
    · rcases hrd with h | h <;> rw [if_pos hcn] at h <;> omega
    · refine ⟨AccState.mk0 0, 0, Or.inr ?_⟩
      rw [hgr]
      refine getD_set_self ?_
      simp only [List.length_set]
      omega
  · intro hc1
    have hcn : ¬ (count ≠ 1) := fun h => h hc1
    rw [if_neg hcn] at hgu
    rw [if_neg hcn] at hgr
    refine ⟨hgu, ⟨AccState.mk0 0, 0, Or.inr ?_⟩, ?_, ?_, ?_⟩
    · rw [hgr]
      exact getD_set_self (by omega)
    · intro j hj
      rw [hgr, getD_set_ne (fun hh => hj hh.symm)]
    · rw [hgr]
      simp only [List.length_set]
    · rcases hrd with h | h <;> rw [if_neg hcn] at h <;> omega

/-- C6: in the driver's loop body, a selection with `count > 1` is a
guess: `guesses` is incremented, the branched value is removed from the
current depth's copy of the chosen cell (exactly `mask - value` when the
value is contained in the mask), the grid is copied to the next depth with
the branched cell holding exactly the branched value, the propagation runs
on that copy, and a new recursion frame appears; with `count = 1` no new
frame or grid copy is made and the assignment happens in place at the
current depth. -/
theorem claim_C6 (cfg : Solver) (t : IterState) (d cellDepth : Nat)
    (nextCells : List Nat) (value count : Nat)
    (ss : List (Option HouseResult)) (co : List Nat)
    (grid : List Nat) (cell : Nat) (st : IterState)
    (hyw : ¬ t.yieldWhen = 1)
    (hcount : ¬ count = 0)
    (hgrid : grid = t.s.grids.getD d [])
    (hcell0 : cell = nextCells.getD 0 0)
    (hdg : d + 1 < t.s.grids.length)
    (hcell : cell < grid.length)
    (hst : st = (applySelection cfg t d cellDepth
      (nextCells, value, count, ss, co)).state) :
    C6Concl cfg t.s.grids d count cell value t.s.counters.guesses grid
      (decide (cellDepth + nextCells.length = cfg.numCells)) st := by
  subst hgrid hcell0 hst
  rw [applySelection]
  dsimp only
  rw [if_neg hcount, if_neg hyw]
  split
  · exact C6_leaf_stuck cfg _ t.s.grids d count _ value _
      t.s.counters.guesses _ hdg hcell rfl rfl (Or.inl rfl)
  · rename_i ok hok
    cases ok with
    | false =>
      simp only [Bool.not_false]
      rw [if_neg hyw]
      rw [apply_ite StepOut.state]
      dsimp only [StepOut.state]
      rw [afterPropagation_true, ite_self]
      exact C6_leaf cfg _ t.s.grids d count _ value _
        t.s.counters.guesses _ _ _ hdg hcell rfl rfl (Or.inl rfl)
    | true =>
      simp only [Bool.not_true, Bool.false_eq_true, false_and, if_false]
      rw [if_neg hyw]
      dsimp only [StepOut.state]
      rw [afterPropagation]
      dsimp only
      rw [if_neg (show ¬ (false = true) by simp)]
      refine C6Concl_ite cfg t.s.grids d count _ value
        t.s.counters.guesses _ _ _ _ _ ?_ ?_
      · exact C6_leaf cfg _ t.s.grids d count _ value _
          t.s.counters.guesses _ _ _ hdg hcell rfl rfl (Or.inr rfl)
      · exact C6_leaf cfg _ t.s.grids d count _ value _
          t.s.counters.guesses _ _ _ hdg hcell rfl rfl (Or.inl rfl)

def c6st : IterState :=
  (applySelection c3cfg c3entry 0 0 ([0], 1, 2, [none], [0])).state

theorem claim_C6_witness :
    C6Concl c3cfg c3entry.s.grids 0 2 0 1 c3entry.s.counters.guesses [3]
      (decide (0 + ([0] : List Nat).length = c3cfg.numCells)) c6st :=
  claim_C6 c3cfg c3entry 0 0 [0] 1 2 [none] [0] [3] 0 c6st
    (by decide) (by decide) (by decide) (by decide) (by decide) (by decide) rfl

/-! ## C2: `validateLayout` -/

/-- `fillHouse`: cell `k` of the house receives mask `1 << k`. -/
def fillHouse (cells : List Nat) (grid : List Nat) : List Nat :=
  (List.range cells.length).foldl
    (fun g i => g.set (cells.getD i 0) (2 ^ i)) grid

/-- One `attempt(house)` of `validateLayout`: reset the stack, fill the
house, halve the backtrack triggers. -/
def attemptState (cfg : Solver) (s : SolverState) (house : List Nat) :
    SolverState :=
  let s := resetStack cfg s
  { s with
    grids := s.grids.set 0 (fillHouse house (s.grids.getD 0 [])),
    backtrackTriggers := s.backtrackTriggers.map (· / 2) }

/-- Look at the first event of a `run(SEARCH_LIMIT)` on the prepared
state: a solution decides `true` (setting
`branchesIgnored = 1 - progressRatio`), exhaustion decides `false`, a
contradiction yield means the attempt was truncated by the budget
(`none`).  The last component flags model fuel exhaustion. -/
def attempt (cfg : Solver) (s : SolverState) (house : List Nat)
    (fuel : Nat) : Option Bool × SolverState × Bool :=
  let s := attemptState cfg s house
  match startRun cfg s 200 fuel with
  | .yielded (.solution _ _) _ t =>
    (some true,
      { t.s with
        counters := { t.s.counters with
          branchesIgnored := Q.sub ⟨1, 1⟩ t.s.counters.progressRatio } },
      false)
  | .yielded _ _ t => (none, t.s, false)
  | .finished t => (some false, t.s, false)
  | .raised _ => (none, s, true)
  | .stuck => (none, s, true)

/-- The `for (const house of houseHandlers)` loop of `validateLayout`:
run attempts in order, returning the first decided result, and log each
truncated attempt's `progressRatio`. -/
def validateLayoutAux (cfg : Solver) :
    List (List Nat) → SolverState → List (List Nat × Q) → Nat →
      Option Bool × SolverState × List (List Nat × Q) × Bool
  | [], s, log, _ => (none, s, log, false)
  | h :: hs, s, log, fuel =>
    let a := attempt cfg s h fuel
    if a.2.2 then (none, a.2.1, log, true)
    else
      match a.1 with
      | some b => (some b, a.2.1, log, false)
      | none =>
        validateLayoutAux cfg hs a.2.1
          (log ++ [(h, a.2.1.counters.progressRatio)]) fuel

/-- `attemptLog.sort((a, b) => b[1] - a[1])` followed by `attemptLog[0]`:
the first entry with maximal progress (the JS sort is stable, so ties keep
their original order). -/
def bestHouseOf (log : List (List Nat × Q)) : List Nat :=
  (log.foldl (fun best e => if best.2 < e.2 then e else best)
    (log.headD ([], ⟨0, 1⟩))).1

/-- The unbudgeted final search of `validateLayout`: reset, fill the best
house, and report whether `run()` produces any event. -/
def finalRun (cfg : Solver) (s : SolverState) (best : List Nat)
    (fuel : Nat) : Option Bool × SolverState :=
  let s := resetStack cfg s
  let s := { s with
    grids := s.grids.set 0 (fillHouse best (s.grids.getD 0 [])) }
  match startRun cfg s 0 fuel with
  | .yielded _ _ t => (some true, { t.s with done := true })
  | .finished t => (some false, { t.s with done := true })
  | .raised _ => (none, s)
  | .stuck => (none, s)

/-- `validateLayout()`. -/
def validateLayout (cfg : Solver) (s : SolverState) (fuel : Nat) :
    Option Bool × SolverState :=
  match validateLayoutAux cfg cfg.C.houses s [] fuel with
  | (some b, s1, _, _) => (some b, { s1 with done := true })
  | (none, s1, _, true) => (none, s1)
  | (none, s1, log, false) =>
    if log.isEmpty then (none, s1)
    else finalRun cfg s1 (bestHouseOf log) fuel

/-- The first argmax of the attempt log: `bestHouseOf` returns the house
of an entry no other entry strictly beats. -/
theorem bestHouseOf_spec (log : List (List Nat × Q))
    (hne : ¬ log = [])
    (hdens : ∀ e ∈ log, 0 < e.2.den) :
    ∃ e ∈ log, bestHouseOf log = e.1 ∧ ∀ f ∈ log, f.2.toRat ≤ e.2.toRat := by
  rw [bestHouseOf]
  obtain ⟨h0, log', rfl⟩ : ∃ h0 log', log = h0 :: log' := by
    cases log with
    | nil => exact absurd rfl hne
    | cons a l => exact ⟨a, l, rfl⟩
  have key : ∀ (l : List (List Nat × Q)) (acc : List Nat × Q),
      acc ∈ h0 :: log' → (∀ e ∈ l, e ∈ h0 :: log') →
      ∃ e ∈ h0 :: log',
        l.foldl (fun best e => if best.2 < e.2 then e else best) acc = e ∧
        acc.2.toRat ≤ e.2.toRat ∧
        ∀ f ∈ l, f.2.toRat ≤ e.2.toRat := by
    intro l
    induction l with
    | nil =>
      intro acc hacc _
      exact ⟨acc, hacc, rfl, le_refl _, by simp⟩
    | cons x xs ih =>
      intro acc hacc hmem
      rw [List.foldl_cons]
      by_cases hlt : acc.2 < x.2
      · rw [if_pos hlt]
        obtain ⟨e, he, heq, hax, hall⟩ :=
          ih x (hmem x (by simp)) (fun f hf => hmem f (by simp [hf]))
        refine ⟨e, he, heq, ?_, ?_⟩
        · have h1 : acc.2.toRat < x.2.toRat := by
            have hd1 : 0 < acc.2.den := hdens _ hacc
            have hd2 : 0 < x.2.den := hdens _ (hmem x (by simp))
            have hlt' : acc.2.num * (x.2.den : Int) <
                x.2.num * (acc.2.den : Int) := hlt
            rw [Q.toRat, Q.toRat]
            rw [div_lt_div_iff (by positivity) (by positivity)]
            push_cast
            exact_mod_cast hlt'
          linarith
        · intro f hf
          rcases List.mem_cons.mp hf with rfl | hf2
          · exact hax
          · exact hall f hf2
      · rw [if_neg hlt]
        obtain ⟨e, he, heq, hax, hall⟩ :=
          ih acc hacc (fun f hf => hmem f (by simp [hf]))
        refine ⟨e, he, heq, hax, ?_⟩
        intro f hf
        rcases List.mem_cons.mp hf with rfl | hf2
        · have hd1 : 0 < acc.2.den := hdens _ hacc
          have hd2 : 0 < f.2.den := hdens _ (hmem f (by simp))
          have hlt2 : ¬ (acc.2.num * (f.2.den : Int) <
              f.2.num * (acc.2.den : Int)) := hlt
          have hle : f.2.num * (acc.2.den : Int) ≤
              acc.2.num * (f.2.den : Int) := Int.not_lt.mp hlt2
          have h1 : f.2.toRat ≤ acc.2.toRat := by
            rw [Q.toRat, Q.toRat]
            rw [div_le_div_iff (by positivity) (by positivity)]
            push_cast
            exact_mod_cast hle
          exact le_trans h1 hax
        · exact hall f hf2
  have hhead : List.headD (h0 :: log') (([], ⟨0, 1⟩) : List Nat × Q) = h0 := rfl
  rw [hhead, List.foldl_cons, ite_self]
  obtain ⟨e, he, heq, hax, hall⟩ :=
    key log' h0 (by simp) (fun f hf => List.mem_cons_of_mem _ hf)
  refine ⟨e, he, by rw [heq], ?_⟩
  intro f hf
  rcases List.mem_cons.mp hf with rfl | hf2
  · exact hax
  · exact hall f hf2

/-! ### The contradiction-yield budget

In a run with `yieldWhen > 1`, the loop yields at a contradiction exactly
when the backtrack counter has just reached a multiple of `yieldWhen`
(`run`, lines 758–766).  Hence a run started with `backtracks ≡ 0
(mod 200)` in mode 200 is suspended at its first contradiction yield with
exactly 200 backtracks accrued. -/

def backNext (b0 yw : Nat) (t' : IterState) : Prop :=
  (t'.s.counters.backtracks = b0 ∨
    (t'.s.counters.backtracks = b0 + 1 ∧
      ¬ t'.s.counters.backtracks % yw = 0)) ∧
  t'.yieldWhen = yw

/-- Backtrack bookkeeping of one loop iteration relative to the incoming
count `b0`: a continuing step either leaves the counter alone or bumps it
past a non-multiple of `yw`; a contradiction yield bumps it onto a
multiple of `yw`; any other yield leaves it alone. -/
def backOut (b0 yw : Nat) (out : StepOut) : Prop :=
  match out with
  | .next t' => backNext b0 yw t'
  | .yielded e _ t' =>
    ((∃ g, e = Event.contradiction g) →
      t'.s.counters.backtracks = b0 + 1 ∧
        t'.s.counters.backtracks % yw = 0) ∧
    ((∀ g, ¬ e = Event.contradiction g) →
      t'.s.counters.backtracks = b0) ∧
    t'.yieldWhen = yw
  | .finished _ => True
  | .stuck _ => True

theorem backOut_ite (b0 yw : Nat) (c : Prop) [Decidable c] (a b : StepOut)
    (ha : c → backOut b0 yw a) (hb : ¬ c → backOut b0 yw b) :
    backOut b0 yw (if c then a else b) := by
  split
  · rename_i h
    exact ha h
  · rename_i h
    exact hb h

theorem backOut_next_ite (b0 yw : Nat) (c : Prop) [Decidable c]
    (a b : IterState)
    (ha : backOut b0 yw (.next a)) (hb : backOut b0 yw (.next b)) :
    backOut b0 yw (.next (if c then a else b)) := by
  split
  · exact ha
  · exact hb

set_option pp.deepTerms false in
set_option pp.maxSteps 512 in
theorem applySelection_backOut (cfg : Solver) (t : IterState)
    (d cellDepth : Nat)
    (sel : List Nat × Nat × Nat × List (Option HouseResult) × List Nat)
    (yw : Nat) (hyw : t.yieldWhen = yw) (h2 : 1 < yw) :
    backOut t.s.counters.backtracks yw (applySelection cfg t d cellDepth sel) := by
  have hyw1 : ¬ yw = 1 := by omega
  have hyw2 : ¬ t.yieldWhen = 1 := by omega
  rw [applySelection]
  dsimp only
  by_cases hc0 : sel.2.2.1 = 0
  · rw [if_pos hc0]
    exact ⟨Or.inl rfl, hyw⟩
  · rw [if_neg hc0, if_neg hyw2]
    split
    · exact trivial
    · rename_i ok hok
      cases ok with
      | false =>
        simp only [Bool.not_false]
        rw [hyw, if_pos h2, if_neg hyw1]
        refine backOut_ite _ _ _ _ _ ?_ ?_
        · intro hc
          exact ⟨fun _ => ⟨rfl, hc.2.2⟩, fun hno => absurd rfl (hno _), rfl⟩
        · intro hnc
          rw [afterPropagation_true]
          refine ⟨Or.inr ⟨rfl, ?_⟩, rfl⟩
          intro hmod
          exact hnc ⟨trivial, by omega, hmod⟩
      | true =>
        simp only [Bool.not_true, Bool.false_eq_true, false_and, if_false]
        rw [hyw, if_neg hyw1, afterPropagation]
        dsimp only
        rw [if_neg (show ¬(false = true) by simp)]
        refine backOut_next_ite _ _ _ _ _ ?_ ?_
        · exact ⟨Or.inl rfl, rfl⟩
        · exact ⟨Or.inl rfl, rfl⟩

set_option pp.deepTerms false in
set_option pp.maxSteps 512 in
theorem loopStep_backtracks (cfg : Solver) (t : IterState) (yw : Nat)
    (hyw : t.yieldWhen = yw) (h2 : 1 < yw) :
    backOut t.s.counters.backtracks yw (loopStep cfg t) := by
  rw [loopStep]
  by_cases h0 : t.recDepth = 0
  · rw [if_pos h0]
    exact trivial
  · rw [if_neg h0]
    dsimp only
    split
    · exact ⟨fun h => Event.noConfusion h.choose_spec, fun _ => rfl, hyw⟩
    · by_cases hn : t.isNewNode = true
      · rw [if_pos hn]
        exact applySelection_backOut cfg _ _ _ _ yw hyw h2
      · rw [if_neg hn]
        exact applySelection_backOut cfg _ _ _ _ yw hyw h2

/-- First contradiction yield of `drive` in mode 200, starting anywhere in
the current budget window `[b0, b0 + 200)`, lands exactly on `b0 + 200`. -/
theorem drive_budget (cfg : Solver) (b0 : Nat) (hb0 : b0 % 200 = 0) :
    ∀ (fuel : Nat) (t : IterState), t.yieldWhen = 200 →
      b0 ≤ t.s.counters.backtracks →
      t.s.counters.backtracks < b0 + 200 →
      ∀ g pos t',
        drive cfg fuel t = AdvOut.yielded (Event.contradiction g) pos t' →
        t'.s.counters.backtracks = b0 + 200 := by
  intro fuel
  induction fuel with
  | zero =>
    intro t _ _ _ g pos t' h
    rw [show drive cfg 0 t = AdvOut.stuck from rfl] at h
    exact AdvOut.noConfusion h
  | succ fuel ih =>
    intro t htw hge hlt g pos t' h
    have hb := loopStep_backtracks cfg t 200 htw (by omega)
    rw [show drive cfg (fuel + 1) t =
        (match loopStep cfg t with
          | .finished t1 => AdvOut.finished t1
          | .next t1 => drive cfg fuel t1
          | .yielded e pos1 t1 => AdvOut.yielded e pos1 t1
          | .stuck _ => AdvOut.stuck) from rfl] at h
    cases hls : loopStep cfg t with
    | finished t1 =>
      rw [hls] at h
      exact AdvOut.noConfusion h
    | stuck t1 =>
      rw [hls] at h
      exact AdvOut.noConfusion h
    | next t1 =>
      rw [hls] at h
      rw [hls] at hb
      obtain ⟨hd, hyw1⟩ := hb
      refine ih t1 hyw1 ?_ ?_ g pos t' h
      · rcases hd with h1 | ⟨h1, _⟩ <;> omega
      · rcases hd with h1 | ⟨h1, h2⟩
        · omega
        · by_contra hcon
          have : t1.s.counters.backtracks = b0 + 200 := by omega
          exact h2 (by omega)
    | yielded e pos1 t1 =>
      rw [hls] at h
      rw [hls] at hb
      injection h with h1 h2 h3
      subst h1
      subst h3
      obtain ⟨hcon, -, -⟩ := hb
      obtain ⟨hb1, hb2⟩ := hcon ⟨g, rfl⟩
      omega

/-- A fresh `run(200)` suspended at its first contradiction yield has
accrued exactly 200 backtracks beyond the state it started from. -/
theorem startRun_budget (cfg : Solver) (s : SolverState) (fuel : Nat)
    (hb : s.counters.backtracks % 200 = 0) :
    ∀ g pos t',
      startRun cfg s 200 fuel = AdvOut.yielded (Event.contradiction g) pos t' →
      t'.s.counters.backtracks = s.counters.backtracks + 200 := by
  intro g pos t' h
  rw [startRun] at h
  by_cases ha : s.atStart = false
  · rw [if_pos ha] at h
    exact AdvOut.noConfusion h
  · rw [if_neg ha] at h
    dsimp only at h
    split at h
    · exact AdvOut.noConfusion h
    · rw [if_neg (show ¬(200 = 1) by omega)] at h
      exact drive_budget cfg s.counters.backtracks hb fuel _ rfl
        (le_refl _)
        (show s.counters.backtracks < s.counters.backtracks + 200 by omega)
        g pos t' h

/-! ### The identity-permutation fill -/

theorem fillHouse_foldl_length (house : List Nat) :
    ∀ (l : List Nat) (g : List Nat),
      (l.foldl (fun g i => g.set (house.getD i 0) (2 ^ i)) g).length =
        g.length := by
  intro l
  induction l with
  | nil => intro g; rfl
  | cons x xs ih =>
    intro g
    rw [List.foldl_cons, ih, List.length_set]

theorem fillHouse_getD (house grid : List Nat) (hnd : house.Nodup)
    (k : Nat) (hk : k < house.length)
    (hin : house.getD k 0 < grid.length) :
    (fillHouse house grid).getD (house.getD k 0) 0 = 2 ^ k := by
  rw [fillHouse]
  have aux : ∀ m, k < m → m ≤ house.length →
      ((List.range m).foldl
        (fun g i => g.set (house.getD i 0) (2 ^ i)) grid).getD
          (house.getD k 0) 0 = 2 ^ k := by
    intro m
    induction m with
    | zero => intro h _; omega
    | succ m ih =>
      intro hkm hmle
      rw [List.range_succ, List.foldl_append, List.foldl_cons, List.foldl_nil]
      by_cases hk2 : k = m
      · subst hk2
        exact getD_set_self (by rw [fillHouse_foldl_length]; exact hin)
      · have hne : house.getD m 0 ≠ house.getD k 0 := by
          intro he
          exact hk2 (getD_inj_of_nodup hnd hk (by omega) he.symm)
        rw [getD_set_ne hne]
        exact ih (by omega) (by omega)
  exact aux house.length hk (le_refl _)

/-- C2: `validateLayout` tries each house in turn: the attempt fills the
house with the identity permutation (cell `k` receives mask `2 ^ k`) and
runs the search with a contradiction-yield budget of 200, so a truncated
attempt has consumed exactly 200 backtracks; a first solution yield
decides `true`, exhaustion decides `false`, and a truncated attempt logs
its `progressRatio` and moves to the next house; when every attempt is
truncated, the final verdict is an unbudgeted rerun from the logged house
of maximal progress. -/
theorem claim_C2 (cfg : Solver) (s : SolverState) (fuel : Nat) :
    (∀ house grid k, house.Nodup → k < house.length →
        house.getD k 0 < grid.length →
        (fillHouse house grid).getD (house.getD k 0) 0 = 2 ^ k) ∧
    (∀ house g pos t',
        (attemptState cfg s house).counters.backtracks % 200 = 0 →
        startRun cfg (attemptState cfg s house) 200 fuel =
          AdvOut.yielded (Event.contradiction g) pos t' →
        t'.s.counters.backtracks =
          (attemptState cfg s house).counters.backtracks + 200) ∧
    (∀ house g co pos t',
        startRun cfg (attemptState cfg s house) 200 fuel =
          AdvOut.yielded (Event.solution g co) pos t' →
        attempt cfg s house fuel =
          (some true,
            { t'.s with
              counters := { t'.s.counters with
                branchesIgnored :=
                  Q.sub ⟨1, 1⟩ t'.s.counters.progressRatio } },
            false)) ∧
    (∀ house t',
        startRun cfg (attemptState cfg s house) 200 fuel =
          AdvOut.finished t' →
        attempt cfg s house fuel = (some false, t'.s, false)) ∧
    (∀ house g pos t',
        startRun cfg (attemptState cfg s house) 200 fuel =
          AdvOut.yielded (Event.contradiction g) pos t' →
        attempt cfg s house fuel = (none, t'.s, false)) ∧
    (∀ h hs log b s',
        attempt cfg s h fuel = (some b, s', false) →
        validateLayoutAux cfg (h :: hs) s log fuel = (some b, s', log, false)) ∧
    (∀ h hs log s',
        attempt cfg s h fuel = (none, s', false) →
        validateLayoutAux cfg (h :: hs) s log fuel =
          validateLayoutAux cfg hs s'
            (log ++ [(h, s'.counters.progressRatio)]) fuel) ∧
    (∀ s1 log,
        validateLayoutAux cfg cfg.C.houses s [] fuel = (none, s1, log, false) →
        ¬ log = [] →
        validateLayout cfg s fuel = finalRun cfg s1 (bestHouseOf log) fuel) ∧
    (∀ log : List (List Nat × Q), ¬ log = [] →
        (∀ e ∈ log, 0 < e.2.den) →
        ∃ e ∈ log, bestHouseOf log = e.1 ∧
          ∀ f ∈ log, f.2.toRat ≤ e.2.toRat) := by
  refine ⟨?_, ?_, ?_, ?_, ?_, ?_, ?_, ?_, ?_⟩
  · intro house grid k hnd hk hin
    exact fillHouse_getD house grid hnd k hk hin
  · intro house g pos t' hb h
    exact startRun_budget cfg (attemptState cfg s house) fuel hb g pos t' h
  · intro house g co pos t' h
    simp only [attempt]
    rw [h]
  · intro house t' h
    simp only [attempt]
    rw [h]
  · intro house g pos t' h
    simp only [attempt]
    rw [h]
  · intro h hs log b s' ha
    simp [validateLayoutAux, ha]
  · intro h hs log s' ha
    simp [validateLayoutAux, ha]
  · intro s1 log heq hlog
    rw [validateLayout, heq]
    dsimp only
    rw [if_neg (by simpa using hlog)]
  · intro log hne hdens
    exact bestHouseOf_spec log hne hdens

end ISS
